import Mathlib

/-
Shallow embedding of rnn_scripts/initializers.py.

Modelling conventions, used throughout:
* numpy float arithmetic is modelled exactly over the rationals;
* the random draws of numpy (the sparse connectivity sample and the
  normal / gamma variates) are passed to each routine as explicit inputs,
  one value per matrix position, as is standard for a shallow embedding of
  randomized code;
* np.sqrt is passed as an explicit function argument sq (axiomatised in the
  theorems only through properties true of the real square root, such as
  nonnegativity of its values), and np.max(np.abs(np.linalg.eigvals(.)))
  likewise as an argument eigO;
* np.pi is the 64-bit floating point constant pi, whose exact rational
  value is npPi below;
* python dictionary access params[key] on the one key that some callers
  omit (w_dist) is modelled by an Option field; reading an absent key is a
  KeyError, modelled as Except.error;
* float operations whose result is not a real number (division by zero
  inside numpy, which yields inf or nan) are modelled as Except.error,
  since inf and nan have no rational counterpart.
-/

namespace RNN

open Matrix

/-- Python int() applied to a float: truncation toward zero. -/
def pyInt (q : ℚ) : ℤ := if q < 0 then -(⌊-q⌋₊ : ℤ) else (⌊q⌋₊ : ℤ)

/-- The index named by a python slice a[-k:] (equivalently the stop index of
a[:-k]) on an axis of length len: for k positive it is max(len - k, 0), and
for k nonpositive it is min(-k, len). In particular k = 0 gives 0, so a[-0:]
is the whole axis while a[:-0] is empty. -/
def negSliceIdx (len : ℕ) (k : ℤ) : ℕ := if 0 < k then len - k.toNat else min k.natAbs len

/-- The exact rational value of the double-precision constant np.pi. -/
def npPi : ℚ := 884279719003555 / 281474976710656

/-- An executable square root on the rationals: the exact square root when
the argument is the square of a rational, 0 otherwise. Used to instantiate
the square-root argument sq of the routines in concrete witnesses. -/
def ratSqrt (q : ℚ) : ℚ :=
  if 0 ≤ q ∧ Nat.sqrt q.num.natAbs * Nat.sqrt q.num.natAbs = q.num.natAbs ∧
      Nat.sqrt q.den * Nat.sqrt q.den = q.den then
    (Nat.sqrt q.num.natAbs : ℚ) / (Nat.sqrt q.den : ℚ)
  else 0

/-- The parameter dictionary of initializers.py, restricted to the keys that
initialize_w_rec reads. All keys except w_dist are read unconditionally on
some path and are modelled as always present; w_dist is only read when
w_rec_dist is not "gauss" and some configurations omit it, so it is an
Option (none = key absent). -/
structure RNNParams where
  n_rec : ℕ
  p_rec : ℚ
  w_rec_dist : String
  w_dist : Option String
  spectr_rad : ℚ
  spectr_norm : Bool
  apply_dale : Bool
  p_inh : ℚ
  balance_dale : Bool
  row_balance_dale : Bool
deriving DecidableEq

/-- Square rational matrix of size n. -/
abbrev Mat (n : ℕ) := Matrix (Fin n) (Fin n) ℚ

/-- n_inh as computed on line 54: int(n_rec * p_inh). -/
def nInhZ (n : ℕ) (p_inh : ℚ) : ℤ := pyInt ((n : ℚ) * p_inh)

/-- The boundary index of the slices [-n_inh:] and [:-n_inh] used on lines
56, 62, 66 and 67: rows/columns at or past this index are the inhibitory
ones. -/
def inhStart (n : ℕ) (p_inh : ℚ) : ℕ := negSliceIdx n (nInhZ n p_inh)

/-- The dale_mask built on lines 17 and 56: the identity with the rows of
the slice [-n_inh:] multiplied by -1. -/
def daleMask (n : ℕ) (p_inh : ℚ) : Mat n :=
  Matrix.of fun i j => if i = j then (if inhStart n p_inh ≤ (i : ℕ) then -1 else 1) else 0

/-- The inhibitory columns, i.e. the columns of the slice [:, -n_inh:]. -/
def inhCols (n : ℕ) (p_inh : ℚ) : Finset (Fin n) :=
  Finset.univ.filter fun j => inhStart n p_inh ≤ (j : ℕ)

/-- The excitatory columns, i.e. the columns of the slice [:, :-n_inh]. -/
def exCols (n : ℕ) (p_inh : ℚ) : Finset (Fin n) :=
  Finset.univ.filter fun j => (j : ℕ) < inhStart n p_inh

/-- ex_u of line 66: the row sums over the excitatory columns. -/
def sumEx (n : ℕ) (p_inh : ℚ) (w : Mat n) (i : Fin n) : ℚ := ∑ j ∈ exCols n p_inh, w i j

/-- in_u of line 67: the row sums over the inhibitory columns. -/
def sumIn (n : ℕ) (p_inh : ℚ) (w : Mat n) (i : Fin n) : ℚ := ∑ j ∈ inhCols n p_inh, w i j

/-- Line 57: w_rec = np.abs(w_rec). -/
def absW (n : ℕ) (w : Mat n) : Mat n := Matrix.of fun i j => |w i j|

/-- Line 62: w_rec[:, -n_inh:] *= EIratio, with EIratio = (1 - p_inh) / p_inh. -/
def eiW (n : ℕ) (p_inh : ℚ) (w : Mat n) : Mat n :=
  Matrix.of fun i j =>
    if inhStart n p_inh ≤ (j : ℕ) then w i j * ((1 - p_inh) / p_inh) else w i j

/-- Lines 66-69: divide each excitatory column entry of row i by
ratio i = ex_u i / in_u i. -/
def rowBalW (n : ℕ) (p_inh : ℚ) (w : Mat n) : Mat n :=
  Matrix.of fun i j =>
    if (j : ℕ) < inhStart n p_inh then w i j / (sumEx n p_inh w i / sumIn n p_inh w i)
    else w i j

/-- The global correction factor b of line 70:
sqrt((1 / (1 - 2 * p_rec / np.pi)) / EIratio). -/
def bFactor (p_rec p_inh : ℚ) (sq : ℚ → ℚ) : ℚ :=
  sq ((1 / (1 - 2 * p_rec / npPi)) / ((1 - p_inh) / p_inh))

/-- Line 71: w_rec *= b. -/
def scaleW (n : ℕ) (b : ℚ) (w : Mat n) : Mat n := Matrix.of fun i j => w i j * b

/-- The Gaussian fill of lines 24-28 (also the fallback of lines 45-49):
positions sampled into rec_idx receive a standard-normal draw times
spectr_rad / sqrt(p_rec * n_rec), the others stay zero. -/
def gaussW (n : ℕ) (p_rec spectr_rad : ℚ) (conn : Fin n → Fin n → Bool)
    (g : Fin n → Fin n → ℚ) (sq : ℚ → ℚ) : Mat n :=
  Matrix.of fun i j => if conn i j then g i j * spectr_rad / sq (p_rec * (n : ℚ)) else 0

/-- The Gamma fill of line 30: sampled positions receive a gamma(2, 0.5)
draw, the others stay zero. -/
def gammaW (n : ℕ) (conn : Fin n → Fin n → Bool) (ga : Fin n → Fin n → ℚ) : Mat n :=
  Matrix.of fun i j => if conn i j then ga i j else 0

/-- Lines 22-49 of initialize_w_rec: the distribution dispatch. Returns the
(possibly updated) parameter record and the filled matrix. The gamma branch
sets spectr_norm to true (line 35); line 40 compares apply_dale with True
instead of assigning, so apply_dale is never written. When w_rec_dist is not
"gauss" and the dictionary has no w_dist key, line 29 raises KeyError. -/
def sampleStep (p : RNNParams) (conn : Fin p.n_rec → Fin p.n_rec → Bool)
    (g ga : Fin p.n_rec → Fin p.n_rec → ℚ) (sq : ℚ → ℚ) :
    Except String (RNNParams × Mat p.n_rec) :=
  if p.w_rec_dist = "gauss" then
    .ok (p, gaussW p.n_rec p.p_rec p.spectr_rad conn g sq)
  else
    match p.w_dist with
    | none => .error "KeyError: w_dist"
    | some d =>
      if d = "gamma" then .ok ({ p with spectr_norm := true }, gammaW p.n_rec conn ga)
      else .ok (p, gaussW p.n_rec p.p_rec p.spectr_rad conn g sq)

/-- Lines 51-71 of initialize_w_rec: Dale's law, balancing and row
balancing. Python raises ZeroDivisionError on line 61 when p_inh = 0. The
row balancing of lines 66-69 performs two divisions: ratio = ex_u / in_u,
which with a zero in_u denominator produces inf or nan in numpy (divide by
zero warning), and the elementwise w_rec[:, :-n_inh] /= ratio, which with a
zero ratio (a row whose excitatory entries all vanished, ex_u = 0) computes
0.0 / 0.0 = nan (invalid value warning) and makes the program return a
matrix with nan entries. Both nonfinite outcomes are modelled as errors,
each with its own branch, so an ok result carries only values that rational
division reproduces exactly. -/
def daleStep (n : ℕ) (p_rec p_inh : ℚ) (app bal rbal : Bool) (sq : ℚ → ℚ)
    (w1 : Mat n) : Except String (Mat n × Mat n) :=
  if app then
    if bal then
      if p_inh = 0 then .error "ZeroDivisionError: float division by zero"
      else
        if rbal then
          if (∀ i, sumIn n p_inh (eiW n p_inh (absW n w1)) i ≠ 0) then
            if (∀ i, sumEx n p_inh (eiW n p_inh (absW n w1)) i ≠ 0) then
              .ok (scaleW n (bFactor p_rec p_inh sq)
                    (rowBalW n p_inh (eiW n p_inh (absW n w1))), daleMask n p_inh)
            else .error "invalid value encountered in divide"
          else .error "divide by zero encountered in divide"
        else
          .ok (scaleW n (bFactor p_rec p_inh sq) (eiW n p_inh (absW n w1)),
               daleMask n p_inh)
    else .ok (absW n w1, daleMask n p_inh)
  else .ok (w1, 1)

/-- Lines 73-79 of initialize_w_rec: spectral normalization. eigO models
np.max(np.abs(np.linalg.eigvals(.))); a zero value would make line 78 divide
by zero (inf/nan in numpy), modelled as an error. -/
def spectrStep (n : ℕ) (snorm : Bool) (srad : ℚ) (eigO : Mat n → ℚ)
    (mask w : Mat n) : Except String (Mat n) :=
  if snorm then
    if eigO (mask * w) = 0 then .error "invalid value encountered in divide"
    else .ok (Matrix.of fun i j => srad * w i j / eigO (mask * w))
  else .ok w

/-- Error-propagating sequencing of two fallible steps (the python
exception flow: an uncaught exception aborts the caller). -/
def ebind {α β γ : Type _} (e : Except α β) (f : β → Except α γ) : Except α γ :=
  match e with
  | .error s => .error s
  | .ok y => f y

/-- Equality is decidable on Except values with decidable components. -/
instance exceptDecEq {α β : Type _} [DecidableEq α] [DecidableEq β] :
    DecidableEq (Except α β)
  | .error a, .error b => decidable_of_iff (a = b) (by simp)
  | .error _, .ok _ => isFalse (by simp)
  | .ok _, .error _ => isFalse (by simp)
  | .ok a, .ok b => decidable_of_iff (a = b) (by simp)

/-- initialize_w_rec (lines 4-81): fill, Dale step, spectral normalization.
Returns the parameter record as left by the call (the python function
mutates its argument in place) together with w_rec and dale_mask. -/
def initialize_w_rec (p : RNNParams) (conn : Fin p.n_rec → Fin p.n_rec → Bool)
    (g ga : Fin p.n_rec → Fin p.n_rec → ℚ) (sq : ℚ → ℚ)
    (eigO : Mat p.n_rec → ℚ) :
    Except String (RNNParams × Mat p.n_rec × Mat p.n_rec) :=
  ebind (sampleStep p conn g ga sq) fun pw =>
    ebind (daleStep p.n_rec pw.1.p_rec pw.1.p_inh pw.1.apply_dale pw.1.balance_dale
        pw.1.row_balance_dale sq pw.2) fun wm =>
      ebind (spectrStep p.n_rec pw.1.spectr_norm pw.1.spectr_rad eigO wm.2 wm.1)
        fun w3 => .ok (pw.1, w3, wm.2)

/-- initialize_w_inp (lines 84-101): sample an n_rec x n_inp sparse pattern
with inclusion probability p_inp, fill the sampled entries with standard
normal draws times sqrt(1 / p_inp), return the transpose. -/
def initialize_w_inp (n_rec n_inp : ℕ) (p_inp : ℚ)
    (conn : Fin n_rec → Fin n_inp → Bool) (g : Fin n_rec → Fin n_inp → ℚ)
    (sq : ℚ → ℚ) : Matrix (Fin n_inp) (Fin n_rec) ℚ :=
  (Matrix.of fun i j => if conn i j then g i j * sq (1 / p_inp) else 0).transpose

section Inversion

variable {p : RNNParams} {conn : Fin p.n_rec → Fin p.n_rec → Bool}
variable {g ga : Fin p.n_rec → Fin p.n_rec → ℚ} {sq : ℚ → ℚ}
variable {eigO : Mat p.n_rec → ℚ}

lemma sampleStep_gauss (h : p.w_rec_dist = "gauss") :
    sampleStep p conn g ga sq = .ok (p, gaussW p.n_rec p.p_rec p.spectr_rad conn g sq) := by
  simp [sampleStep, h]

lemma sampleStep_gamma (h1 : p.w_rec_dist ≠ "gauss") (h2 : p.w_dist = some "gamma") :
    sampleStep p conn g ga sq = .ok ({ p with spectr_norm := true }, gammaW p.n_rec conn ga) := by
  simp [sampleStep, h1, h2]

lemma sampleStep_fallback {d : String} (h1 : p.w_rec_dist ≠ "gauss")
    (h2 : p.w_dist = some d) (h3 : d ≠ "gamma") :
    sampleStep p conn g ga sq = .ok (p, gaussW p.n_rec p.p_rec p.spectr_rad conn g sq) := by
  simp [sampleStep, h1, h2, h3]

lemma sampleStep_missing (h1 : p.w_rec_dist ≠ "gauss") (h2 : p.w_dist = none) :
    sampleStep p conn g ga sq = .error "KeyError: w_dist" := by
  simp [sampleStep, h1, h2]

lemma sampleStep_ok_params {p1 : RNNParams} {w1 : Mat p.n_rec}
    (h : sampleStep p conn g ga sq = .ok (p1, w1)) :
    (p.w_rec_dist ≠ "gauss" ∧ p.w_dist = some "gamma" ∧
        p1 = { p with spectr_norm := true }) ∨
    ((p.w_rec_dist = "gauss" ∨ ∃ d, p.w_dist = some d ∧ d ≠ "gamma") ∧ p1 = p) := by
  by_cases hg : p.w_rec_dist = "gauss"
  · rw [sampleStep_gauss hg] at h
    simp only [Except.ok.injEq, Prod.mk.injEq] at h
    exact Or.inr ⟨Or.inl hg, h.1.symm⟩
  · rcases Option.eq_none_or_eq_some p.w_dist with hw | ⟨d, hw⟩
    · rw [sampleStep_missing hg hw] at h; exact absurd h (by simp)
    · by_cases hd : d = "gamma"
      · subst hd
        rw [sampleStep_gamma hg hw] at h
        simp only [Except.ok.injEq, Prod.mk.injEq] at h
        exact Or.inl ⟨hg, hw, h.1.symm⟩
      · rw [sampleStep_fallback hg hw hd] at h
        simp only [Except.ok.injEq, Prod.mk.injEq] at h
        exact Or.inr ⟨Or.inr ⟨d, hw, hd⟩, h.1.symm⟩

lemma ebind_ok {α β γ : Type _} {e : Except α β} {f : β → Except α γ} {x : γ}
    (h : ebind e f = .ok x) : ∃ y, e = .ok y ∧ f y = .ok x := by
  cases e with
  | error s => exact absurd h (by simp [ebind])
  | ok y => exact ⟨y, rfl, h⟩

lemma initialize_w_rec_ok {p1 : RNNParams} {w m : Mat p.n_rec}
    (h : initialize_w_rec p conn g ga sq eigO = .ok (p1, w, m)) :
    ∃ w1 w2, sampleStep p conn g ga sq = .ok (p1, w1) ∧
      daleStep p.n_rec p1.p_rec p1.p_inh p1.apply_dale p1.balance_dale
        p1.row_balance_dale sq w1 = .ok (w2, m) ∧
      spectrStep p.n_rec p1.spectr_norm p1.spectr_rad eigO m w2 = .ok w := by
  unfold initialize_w_rec at h
  obtain ⟨pw, hs, h⟩ := ebind_ok h
  obtain ⟨wm, hd, h⟩ := ebind_ok h
  obtain ⟨w3, hsp, h⟩ := ebind_ok h
  obtain ⟨hp, hw, hm⟩ : pw.1 = p1 ∧ w3 = w ∧ wm.2 = m := by simpa using h
  subst hp; subst hw; subst hm
  refine ⟨pw.2, wm.1, by simpa using hs, by simpa using hd, hsp⟩

end Inversion

/-- C6: initialize_w_inp returns a matrix of shape [n_inp, n_rec], the
transpose of the sampled n_rec x n_inp matrix; its (a, b) entry is zero
unless position (b, a) was sampled, in which case it is the standard normal
draw for that position scaled by sqrt(1 / p_inp); no Dale or spectral
normalization logic is applied. -/
theorem initialize_w_inp_entries (n_rec n_inp : ℕ) (p_inp : ℚ)
    (conn : Fin n_rec → Fin n_inp → Bool) (g : Fin n_rec → Fin n_inp → ℚ)
    (sq : ℚ → ℚ) (a : Fin n_inp) (b : Fin n_rec) :
    initialize_w_inp n_rec n_inp p_inp conn g sq a b
      = if conn b a then g b a * sq (1 / p_inp) else 0 := by
  simp [initialize_w_inp]

/-- A configuration whose w_rec_dist is unrecognized and whose dictionary
has no w_dist key (counterexample input for C4). -/
def cfgNoWDist : RNNParams :=
  { n_rec := 1, p_rec := 1, w_rec_dist := "uniform", w_dist := none,
    spectr_rad := 1, spectr_norm := false, apply_dale := false, p_inh := 0,
    balance_dale := false, row_balance_dale := false }

/-- C4 counterexample: with w_rec_dist = "uniform" and no w_dist field, the
claim says no error is raised and the Gaussian path is taken; in fact the
dictionary lookup on line 29 raises KeyError, so the call errors instead of
returning. -/
theorem cfgNoWDist_keyerror :
    initialize_w_rec cfgNoWDist (fun _ _ => false) (fun _ _ => 0) (fun _ _ => 0)
      ratSqrt (fun _ => 1) = .error "KeyError: w_dist" := by
  decide

/-- C4 (amended): for a configuration whose w_rec_dist is not "gauss", the
call raises KeyError when the w_dist field is absent; when w_dist is present
with a value other than "gamma", the dispatch falls through to the Gaussian
fill with the parameter record unchanged. -/
theorem w_dist_dispatch (p : RNNParams) (conn : Fin p.n_rec → Fin p.n_rec → Bool)
    (g ga : Fin p.n_rec → Fin p.n_rec → ℚ) (sq : ℚ → ℚ) (eigO : Mat p.n_rec → ℚ)
    (hne : p.w_rec_dist ≠ "gauss") :
    (p.w_dist = none →
      initialize_w_rec p conn g ga sq eigO = .error "KeyError: w_dist") ∧
    (∀ d, p.w_dist = some d → d ≠ "gamma" →
      sampleStep p conn g ga sq
        = .ok (p, gaussW p.n_rec p.p_rec p.spectr_rad conn g sq)) := by
  constructor
  · intro hnone
    unfold initialize_w_rec
    rw [sampleStep_missing hne hnone]
    rfl
  · intro d hd hdg
    exact sampleStep_fallback hne hd hdg

/-- Witness for C4: the amended statement applied to the concrete
configuration cfgNoWDist. -/
theorem w_dist_dispatch_witness :
    initialize_w_rec cfgNoWDist (fun _ _ => false) (fun _ _ => 0) (fun _ _ => 0)
      ratSqrt (fun _ => 1) = .error "KeyError: w_dist" :=
  (w_dist_dispatch cfgNoWDist (fun _ _ => false) (fun _ _ => 0) (fun _ _ => 0)
    ratSqrt (fun _ => 1) (by decide)).1 rfl

/-- C5: for every call of initialize_w_rec that returns, the parameter
record is unchanged except that the Gamma branch sets spectr_norm to true;
in particular apply_dale is never changed (line 40 is an equality comparison
with no effect), and every other field is unchanged on every path. -/
theorem gamma_branch_frame (p : RNNParams) (conn : Fin p.n_rec → Fin p.n_rec → Bool)
    (g ga : Fin p.n_rec → Fin p.n_rec → ℚ) (sq : ℚ → ℚ) (eigO : Mat p.n_rec → ℚ)
    (p1 : RNNParams) (w m : Mat p.n_rec)
    (hok : initialize_w_rec p conn g ga sq eigO = .ok (p1, w, m)) :
    (p.w_rec_dist ≠ "gauss" → p.w_dist = some "gamma" →
      p1 = { p with spectr_norm := true }) ∧
    (p.w_rec_dist = "gauss" ∨ p.w_dist ≠ some "gamma" → p1 = p) ∧
    p1.apply_dale = p.apply_dale ∧ p1.n_rec = p.n_rec ∧ p1.p_rec = p.p_rec ∧
    p1.w_rec_dist = p.w_rec_dist ∧ p1.w_dist = p.w_dist ∧
    p1.spectr_rad = p.spectr_rad ∧ p1.p_inh = p.p_inh ∧
    p1.balance_dale = p.balance_dale ∧ p1.row_balance_dale = p.row_balance_dale := by
  obtain ⟨w1, w2, hs, _, _⟩ := initialize_w_rec_ok hok
  rcases sampleStep_ok_params hs with ⟨hg, hd, hp⟩ | ⟨hbr, hp⟩
  · subst hp
    refine ⟨fun _ _ => rfl, fun hc => ?_, rfl, rfl, rfl, rfl, rfl, rfl, rfl, rfl, rfl⟩
    rcases hc with hc | hc
    · exact absurd hc hg
    · exact absurd hd hc
  · subst hp
    refine ⟨fun hne hsome => ?_, fun _ => rfl, rfl, rfl, rfl, rfl, rfl, rfl, rfl, rfl, rfl⟩
    rcases hbr with hc | ⟨d, hd, hdne⟩
    · exact absurd hc hne
    · rw [hd] at hsome
      exact absurd (by simpa using hsome) hdne

/-- The gamma configuration used by the witness of C5: every flag that the
gamma branch might touch starts out false. -/
def cfgGamma : RNNParams :=
  { n_rec := 1, p_rec := 1, w_rec_dist := "gamma", w_dist := some "gamma",
    spectr_rad := 1, spectr_norm := false, apply_dale := false, p_inh := 0,
    balance_dale := false, row_balance_dale := false }

/-- The parameter record after the gamma branch: only spectr_norm changed. -/
def cfgGammaOut : RNNParams := { cfgGamma with spectr_norm := true }

/-- The weight matrix returned by the gamma-branch witness call. -/
def gammaOutW : Mat 1 :=
  Matrix.of fun i j => (1 : ℚ) * gammaW 1 (fun _ _ => false) (fun _ _ => 0) i j / 1

/-- Witness for C5: a concrete gamma-branch call returns, and leaves
apply_dale unchanged (false) while setting spectr_norm. -/
theorem gamma_branch_frame_witness :
    cfgGammaOut.apply_dale = cfgGamma.apply_dale ∧ cfgGammaOut.spectr_norm = true :=
  ⟨(gamma_branch_frame cfgGamma (fun _ _ => false) (fun _ _ => 0) (fun _ _ => 0)
      ratSqrt (fun _ => 1) cfgGammaOut gammaOutW 1 rfl).2.2.1,
    rfl⟩

section RatSqrtLemmas

lemma ratSqrt_nonneg (q : ℚ) : 0 ≤ ratSqrt q := by
  unfold ratSqrt
  split_ifs
  · positivity
  · exact le_refl 0

lemma ratSqrt_mul_self {q : ℚ} (hq : 0 ≤ q) : ratSqrt (q * q) = q := by
  unfold ratSqrt
  have hnum : (q * q).num.natAbs = q.num.natAbs * q.num.natAbs := by
    rw [Rat.mul_self_num, Int.natAbs_mul]
  have hden : (q * q).den = q.den * q.den := Rat.mul_self_den q
  rw [if_pos]
  · rw [hnum, hden, Nat.sqrt_eq, Nat.sqrt_eq]
    have hq0 : (0 : ℤ) ≤ q.num := Rat.num_nonneg.mpr hq
    have hcast : ((q.num.natAbs : ℚ)) = ((q.num : ℤ) : ℚ) := by
      rw [Int.cast_natAbs]
      exact_mod_cast abs_of_nonneg hq0
    rw [hcast, Rat.num_div_den]
  · refine ⟨mul_self_nonneg q, ?_, ?_⟩
    · rw [hnum, Nat.sqrt_eq]
    · rw [hden, Nat.sqrt_eq]

end RatSqrtLemmas

section StepLemmas

lemma sampleStep_ok_fields {p : RNNParams} {conn : Fin p.n_rec → Fin p.n_rec → Bool}
    {g ga : Fin p.n_rec → Fin p.n_rec → ℚ} {sq : ℚ → ℚ}
    {p1 : RNNParams} {w1 : Mat p.n_rec}
    (h : sampleStep p conn g ga sq = .ok (p1, w1)) :
    p1.n_rec = p.n_rec ∧ p1.p_rec = p.p_rec ∧ p1.p_inh = p.p_inh ∧
    p1.apply_dale = p.apply_dale ∧ p1.balance_dale = p.balance_dale ∧
    p1.row_balance_dale = p.row_balance_dale ∧ p1.spectr_rad = p.spectr_rad := by
  rcases sampleStep_ok_params h with ⟨_, _, hp⟩ | ⟨_, hp⟩ <;> subst hp <;>
    exact ⟨rfl, rfl, rfl, rfl, rfl, rfl, rfl⟩

lemma daleStep_ok_mask {n : ℕ} {pr pi : ℚ} {bal rbal : Bool} {sq : ℚ → ℚ}
    {w1 w2 mask : Mat n}
    (h : daleStep n pr pi true bal rbal sq w1 = .ok (w2, mask)) :
    mask = daleMask n pi := by
  unfold daleStep at h
  rw [if_pos rfl] at h
  split_ifs at h <;>
    (simp only [Except.ok.injEq, Prod.mk.injEq] at h; exact h.2.symm)

lemma absW_nonneg (n : ℕ) (w : Mat n) (i j : Fin n) : 0 ≤ absW n w i j :=
  abs_nonneg _

lemma eiW_nonneg {n : ℕ} {pi : ℚ} {w : Mat n} (hr : 0 ≤ (1 - pi) / pi)
    (hw : ∀ i j, 0 ≤ w i j) (i j : Fin n) : 0 ≤ eiW n pi w i j := by
  simp only [eiW, Matrix.of_apply]
  split_ifs
  · exact mul_nonneg (hw i j) hr
  · exact hw i j

lemma rowBalW_nonneg {n : ℕ} {pi : ℚ} {w : Mat n}
    (hw : ∀ i j, 0 ≤ w i j) (i j : Fin n) : 0 ≤ rowBalW n pi w i j := by
  simp only [rowBalW, Matrix.of_apply]
  split_ifs
  · refine div_nonneg (hw i j) (div_nonneg ?_ ?_) <;>
      exact Finset.sum_nonneg fun k _ => hw i k
  · exact hw i j

lemma scaleW_nonneg {n : ℕ} {b : ℚ} {w : Mat n} (hb : 0 ≤ b)
    (hw : ∀ i j, 0 ≤ w i j) (i j : Fin n) : 0 ≤ scaleW n b w i j :=
  mul_nonneg (hw i j) hb

lemma daleStep_ok_nonneg {n : ℕ} {pr pi : ℚ} {bal rbal : Bool} {sq : ℚ → ℚ}
    {w1 w2 mask : Mat n} (hpi0 : 0 ≤ pi) (hpi1 : pi ≤ 1) (hsq : ∀ x, 0 ≤ sq x)
    (h : daleStep n pr pi true bal rbal sq w1 = .ok (w2, mask)) :
    ∀ i j, 0 ≤ w2 i j := by
  have hr : 0 ≤ (1 - pi) / pi := div_nonneg (by linarith) hpi0
  unfold daleStep at h
  rw [if_pos rfl] at h
  split_ifs at h
  · simp only [Except.ok.injEq, Prod.mk.injEq] at h
    rw [← h.1]
    exact fun i j => scaleW_nonneg (hsq _)
      (rowBalW_nonneg (eiW_nonneg hr (absW_nonneg n w1))) i j
  · simp only [Except.ok.injEq, Prod.mk.injEq] at h
    rw [← h.1]
    exact fun i j => scaleW_nonneg (hsq _) (eiW_nonneg hr (absW_nonneg n w1)) i j
  · simp only [Except.ok.injEq, Prod.mk.injEq] at h
    rw [← h.1]
    exact fun i j => absW_nonneg n w1 i j

lemma spectrStep_ok_id {n : ℕ} {srad : ℚ} {eigO : Mat n → ℚ}
    {mask w wf : Mat n} (h : spectrStep n false srad eigO mask w = .ok wf) :
    wf = w := by
  unfold spectrStep at h
  rw [if_neg (by simp)] at h
  simp only [Except.ok.injEq] at h
  exact h.symm

lemma spectrStep_ok_norm {n : ℕ} {srad : ℚ} {eigO : Mat n → ℚ}
    {mask w wf : Mat n} (h : spectrStep n true srad eigO mask w = .ok wf) :
    eigO (mask * w) ≠ 0 ∧ wf = Matrix.of fun i j => srad * w i j / eigO (mask * w) := by
  unfold spectrStep at h
  rw [if_pos rfl] at h
  split_ifs at h with hr
  simp only [Except.ok.injEq] at h
  exact ⟨hr, h.symm⟩

lemma spectrStep_ok_nonneg {n : ℕ} {snorm : Bool} {srad : ℚ}
    {eigO : Mat n → ℚ} {mask w wf : Mat n} (hsr : 0 ≤ srad)
    (hei : ∀ M : Mat n, 0 ≤ eigO M) (hw : ∀ i j, 0 ≤ w i j)
    (h : spectrStep n snorm srad eigO mask w = .ok wf) : ∀ i j, 0 ≤ wf i j := by
  cases snorm with
  | false => rw [spectrStep_ok_id h]; exact hw
  | true =>
    rw [(spectrStep_ok_norm h).2]
    exact fun i j => div_nonneg (mul_nonneg hsr (hw i j)) (hei _)

end StepLemmas

section CountLemmas

lemma card_filter_le_val (n s : ℕ) :
    (Finset.univ.filter fun i : Fin n => s ≤ (i : ℕ)).card = n - s := by
  rw [Finset.card_filter]
  rw [Fin.sum_univ_eq_sum_range fun m => if s ≤ m then 1 else 0]
  rw [← Finset.card_filter]
  rw [Finset.range_eq_Ico, Finset.Ico_filter_le, Nat.card_Ico]
  simp

lemma pyInt_floor {q : ℚ} (hq : 0 ≤ q) : pyInt q = (⌊q⌋₊ : ℤ) := by
  unfold pyInt
  rw [if_neg (not_lt.mpr hq)]

lemma inhStart_of_pos {n : ℕ} {pi : ℚ} (h1 : 1 ≤ nInhZ n pi) :
    inhStart n pi = n - (nInhZ n pi).toNat := by
  unfold inhStart negSliceIdx
  rw [if_pos (by omega)]

lemma nInh_le {n : ℕ} {pi : ℚ} (hpi0 : 0 ≤ pi) (hpi1 : pi ≤ 1) :
    (nInhZ n pi).toNat ≤ n := by
  have hq : (0 : ℚ) ≤ (n : ℚ) * pi := mul_nonneg (by positivity) hpi0
  have hle : (n : ℚ) * pi ≤ (n : ℚ) := by nlinarith [@Nat.cast_nonneg ℚ _ n]
  unfold nInhZ
  rw [pyInt_floor hq]
  have h1 : ⌊(n : ℚ) * pi⌋₊ ≤ ⌊((n : ℕ) : ℚ)⌋₊ := Nat.floor_le_floor hle
  rw [Nat.floor_natCast] at h1
  omega

end CountLemmas

/-- The configuration of the C9 witness: truncation of n_rec * p_inh to
zero makes the slice [-0:] flip every mask row. -/
def cfgTrunc : RNNParams :=
  { n_rec := 3, p_rec := 1, w_rec_dist := "gauss", w_dist := none,
    spectr_rad := 1, spectr_norm := false, apply_dale := true, p_inh := 1 / 4,
    balance_dale := false, row_balance_dale := false }

/-- C9: with apply_dale = true and 0 < n_rec * p_inh < 1, int() truncates
the inhibitory count to zero and the slice dale_mask[-0:] selects every
row, so every diagonal entry of the returned mask is -1 (every neuron is
marked inhibitory instead of none). -/
theorem dale_mask_all_inhibitory (p : RNNParams)
    (conn : Fin p.n_rec → Fin p.n_rec → Bool) (g ga : Fin p.n_rec → Fin p.n_rec → ℚ)
    (sq : ℚ → ℚ) (eigO : Mat p.n_rec → ℚ) (p1 : RNNParams) (w m : Mat p.n_rec)
    (hd : p.apply_dale = true)
    (h0 : 0 < (p.n_rec : ℚ) * p.p_inh) (h1 : (p.n_rec : ℚ) * p.p_inh < 1)
    (hok : initialize_w_rec p conn g ga sq eigO = .ok (p1, w, m))
    (i : Fin p.n_rec) : m i i = -1 := by
  obtain ⟨w1, w2, hs, hdl, _⟩ := initialize_w_rec_ok hok
  obtain ⟨_, _, hpinh, happ, _, _, _⟩ := sampleStep_ok_fields hs
  rw [happ, hd] at hdl
  have hm := daleStep_ok_mask hdl
  rw [hpinh] at hm
  have hz : inhStart p.n_rec p.p_inh = 0 := by
    unfold inhStart nInhZ negSliceIdx
    rw [pyInt_floor (le_of_lt h0), Nat.floor_eq_zero.mpr h1]
    simp
  rw [hm]
  simp [daleMask, hz]

section BuildLemmas

variable {p : RNNParams} {conn : Fin p.n_rec → Fin p.n_rec → Bool}
variable {g ga : Fin p.n_rec → Fin p.n_rec → ℚ} {sq : ℚ → ℚ}
variable {eigO : Mat p.n_rec → ℚ}

lemma initialize_w_rec_build {p1 : RNNParams} {w1 w2 mask wf : Mat p.n_rec}
    (hs : sampleStep p conn g ga sq = .ok (p1, w1))
    (hd : daleStep p.n_rec p1.p_rec p1.p_inh p1.apply_dale p1.balance_dale
        p1.row_balance_dale sq w1 = .ok (w2, mask))
    (hsp : spectrStep p.n_rec p1.spectr_norm p1.spectr_rad eigO mask w2 = .ok wf) :
    initialize_w_rec p conn g ga sq eigO = .ok (p1, wf, mask) := by
  unfold initialize_w_rec
  rw [hs]
  simp only [ebind]
  rw [hd]
  simp only [ebind]
  rw [hsp]

lemma daleStep_skip {n : ℕ} {pr pi : ℚ} {bal rbal : Bool} {sq : ℚ → ℚ} {w1 : Mat n} :
    daleStep n pr pi false bal rbal sq w1 = .ok (w1, 1) := by
  unfold daleStep
  rw [if_neg (by simp)]

lemma daleStep_abs {n : ℕ} {pr pi : ℚ} {rbal : Bool} {sq : ℚ → ℚ} {w1 : Mat n} :
    daleStep n pr pi true false rbal sq w1 = .ok (absW n w1, daleMask n pi) := by
  unfold daleStep
  rw [if_pos rfl, if_neg (by simp)]

lemma daleStep_rowbal {n : ℕ} {pr pi : ℚ} {sq : ℚ → ℚ} {w1 : Mat n}
    (hpi : ¬ pi = 0) (hall : ∀ i, sumIn n pi (eiW n pi (absW n w1)) i ≠ 0)
    (hex : ∀ i, sumEx n pi (eiW n pi (absW n w1)) i ≠ 0) :
    daleStep n pr pi true true true sq w1
      = .ok (scaleW n (bFactor pr pi sq) (rowBalW n pi (eiW n pi (absW n w1))),
             daleMask n pi) := by
  unfold daleStep
  rw [if_pos rfl, if_pos rfl, if_neg hpi, if_pos rfl, if_pos hall, if_pos hex]

lemma daleStep_rowbal_nan {n : ℕ} {pr pi : ℚ} {sq : ℚ → ℚ} {w1 : Mat n}
    (hpi : ¬ pi = 0) (hall : ∀ i, sumIn n pi (eiW n pi (absW n w1)) i ≠ 0)
    (hnex : ¬ ∀ i, sumEx n pi (eiW n pi (absW n w1)) i ≠ 0) :
    daleStep n pr pi true true true sq w1
      = .error "invalid value encountered in divide" := by
  unfold daleStep
  rw [if_pos rfl, if_pos rfl, if_neg hpi, if_pos rfl, if_pos hall, if_neg hnex]

lemma initialize_w_rec_dale_error {p p1 : RNNParams} {s : String}
    {conn : Fin p.n_rec → Fin p.n_rec → Bool}
    {g ga : Fin p.n_rec → Fin p.n_rec → ℚ} {sq : ℚ → ℚ} {eigO : Mat p.n_rec → ℚ}
    {w1 : Mat p.n_rec}
    (hs : sampleStep p conn g ga sq = .ok (p1, w1))
    (hd : daleStep p.n_rec p1.p_rec p1.p_inh p1.apply_dale p1.balance_dale
        p1.row_balance_dale sq w1 = .error s) :
    initialize_w_rec p conn g ga sq eigO = .error s := by
  unfold initialize_w_rec
  rw [hs]
  simp only [ebind]
  rw [hd]

lemma spectrStep_off {n : ℕ} {srad : ℚ} {eigO : Mat n → ℚ} {mask w : Mat n} :
    spectrStep n false srad eigO mask w = .ok w := by
  unfold spectrStep
  rw [if_neg (by simp)]

lemma spectrStep_on {n : ℕ} {srad : ℚ} {eigO : Mat n → ℚ} {mask w : Mat n}
    (hne : ¬ eigO (mask * w) = 0) :
    spectrStep n true srad eigO mask w
      = .ok (Matrix.of fun i j => srad * w i j / eigO (mask * w)) := by
  unfold spectrStep
  rw [if_pos rfl, if_neg hne]

end BuildLemmas

/-- Witness for C9: the concrete configuration cfgTrunc has
n_rec * p_inh = 3/4, and the returned mask is -1 on the whole diagonal. -/
theorem dale_mask_all_inhibitory_witness :
    daleMask 3 (1 / 4) 0 0 = -1 ∧ daleMask 3 (1 / 4) 2 2 = -1 :=
  ⟨dale_mask_all_inhibitory cfgTrunc (fun _ _ => false) (fun _ _ => 0)
      (fun _ _ => 0) ratSqrt (fun _ => 1) cfgTrunc
      (absW 3 (gaussW 3 1 1 (fun _ _ => false) (fun _ _ => 0) ratSqrt))
      (daleMask 3 (1 / 4)) rfl (by norm_num [cfgTrunc]) (by norm_num [cfgTrunc])
      rfl ⟨0, by decide⟩,
    dale_mask_all_inhibitory cfgTrunc (fun _ _ => false) (fun _ _ => 0)
      (fun _ _ => 0) ratSqrt (fun _ => 1) cfgTrunc
      (absW 3 (gaussW 3 1 1 (fun _ _ => false) (fun _ _ => 0) ratSqrt))
      (daleMask 3 (1 / 4)) rfl (by norm_num [cfgTrunc]) (by norm_num [cfgTrunc])
      rfl ⟨2, by decide⟩⟩

lemma spectr_scale_smul (n : ℕ) (srad r : ℚ) (w : Mat n) :
    (Matrix.of fun i j => srad * w i j / r) = (srad / r) • w := by
  ext i j
  simp only [Matrix.of_apply, Matrix.smul_apply, smul_eq_mul]
  ring

/-- C3: when spectr_norm is true (and the pre-normalization matrix has a
nonzero maximal eigenvalue modulus, i.e. the call returns), the returned
weight matrix satisfies eig-max(mask * weights) = spectr_rad, because the
matrix is rescaled by spectr_rad over the largest absolute eigenvalue of
mask * weights and absolute eigenvalue maxima scale linearly under
nonnegative scalings (the hypothesis hhom, true of the spectral radius). -/
theorem spectral_radius_normalized (p : RNNParams)
    (conn : Fin p.n_rec → Fin p.n_rec → Bool) (g ga : Fin p.n_rec → Fin p.n_rec → ℚ)
    (sq : ℚ → ℚ) (eigO : Mat p.n_rec → ℚ) (p1 : RNNParams) (w m : Mat p.n_rec)
    (hnorm : p.spectr_norm = true)
    (hhom : ∀ (c : ℚ) (M : Mat p.n_rec), 0 ≤ c → eigO (c • M) = c * eigO M)
    (hnn : ∀ M : Mat p.n_rec, 0 ≤ eigO M)
    (hsr : 0 ≤ p.spectr_rad)
    (hok : initialize_w_rec p conn g ga sq eigO = .ok (p1, w, m)) :
    eigO (m * w) = p.spectr_rad := by
  obtain ⟨w1, w2, hs, hdl, hsp⟩ := initialize_w_rec_ok hok
  have hsn : p1.spectr_norm = true := by
    rcases sampleStep_ok_params hs with ⟨_, _, hp⟩ | ⟨_, hp⟩ <;> subst hp
    · rfl
    · exact hnorm
  have hsrad : p1.spectr_rad = p.spectr_rad := (sampleStep_ok_fields hs).2.2.2.2.2.2
  rw [hsn] at hsp
  obtain ⟨hne, hwf⟩ := spectrStep_ok_norm hsp
  have hrpos : 0 < eigO (m * w2) := lt_of_le_of_ne (hnn _) (Ne.symm hne)
  subst hwf
  rw [spectr_scale_smul, Matrix.mul_smul,
    hhom _ _ (div_nonneg (hsrad ▸ hsr) (le_of_lt hrpos)),
    div_mul_cancel₀ _ hne]
  exact hsrad

/-- The configuration of the C3 witness. -/
def cfgSpec : RNNParams :=
  { n_rec := 1, p_rec := 1, w_rec_dist := "gauss", w_dist := none,
    spectr_rad := 2, spectr_norm := true, apply_dale := false, p_inh := 0,
    balance_dale := false, row_balance_dale := false }

/-- The sampled matrix of the C3 witness call. -/
def specW1 : Mat 1 := gaussW 1 1 2 (fun _ _ => true) (fun _ _ => 1) (fun _ => 1)

/-- The eigenvalue oracle of the C3 witness: the absolute value of the only
entry of a 1 x 1 matrix, which is exactly its spectral radius. -/
def specEig : Mat 1 → ℚ := fun M => |M 0 0|

/-- The weight matrix returned by the C3 witness call. -/
def specWF : Mat 1 :=
  Matrix.of fun i j => (2 : ℚ) * specW1 i j / specEig ((1 : Mat 1) * specW1)

/-- Witness for C3: on a concrete 1 x 1 configuration with spectr_rad = 2
the returned weight matrix has eig-max(mask * weights) = 2. -/
theorem spectral_radius_normalized_witness :
    specEig ((1 : Mat 1) * specWF) = cfgSpec.spectr_rad := by
  have hval : specW1 0 0 = 2 := by
    simp [specW1, gaussW]
  have hne : ¬ specEig ((1 : Mat 1) * specW1) = 0 := by
    rw [Matrix.one_mul]
    simp only [specEig, hval]
    norm_num
  have hok : initialize_w_rec cfgSpec (fun _ _ => true) (fun _ _ => 1) (fun _ _ => 0)
      (fun _ => 1) specEig = .ok (cfgSpec, specWF, (1 : Mat 1)) :=
    initialize_w_rec_build (sampleStep_gauss rfl) daleStep_skip (spectrStep_on hne)
  exact spectral_radius_normalized cfgSpec (fun _ _ => true) (fun _ _ => 1)
    (fun _ _ => 0) (fun _ => 1) specEig cfgSpec specWF (1 : Mat 1) rfl
    (fun c M hc => by simp [specEig, Matrix.smul_apply, smul_eq_mul, abs_mul,
      abs_of_nonneg hc])
    (fun M => abs_nonneg _) (by norm_num [cfgSpec]) hok

section MaskCount

lemma daleMask_count {n : ℕ} {pi : ℚ} (h1 : 1 ≤ nInhZ n pi)
    (h2 : (nInhZ n pi).toNat ≤ n) :
    (Finset.univ.filter fun i : Fin n => daleMask n pi i i = -1).card
      = (nInhZ n pi).toNat := by
  have hstart : inhStart n pi = n - (nInhZ n pi).toNat := inhStart_of_pos h1
  have hiff : ∀ i : Fin n, (daleMask n pi i i = -1) ↔ (inhStart n pi ≤ (i : ℕ)) := by
    intro i
    simp only [daleMask, Matrix.of_apply, eq_self_iff_true, if_true]
    split_ifs with hif
    · simp [hif]
    · constructor
      · intro h; norm_num at h
      · intro h; exact absurd h hif
  rw [Finset.filter_congr (fun i _ => hiff i), card_filter_le_val, hstart]
  omega

end MaskCount

/-- C1 (amended): for apply_dale = true, on every returning call with a
nonnegative square-root and eigenvalue oracle, nonnegative spectr_rad and
0 <= p_inh <= 1, every entry of the returned weight matrix is nonnegative;
and provided the truncated count int(n_rec * p_inh) is at least 1, exactly
that many diagonal entries of the mask equal -1 and every other diagonal
entry equals 1. The count is the truncation toward zero of n_rec * p_inh,
not its rounding (see the counterexample), and for int(n_rec * p_inh) = 0
the mask is instead -1 everywhere on the diagonal (claim C9). A returning
call here excludes the runs on which the program produces nan entries: with
balance_dale and row_balance_dale set, a row whose excitatory sum ex_u is
zero makes line 69 compute 0.0 / 0.0, the program returns a matrix with nan
entries (which are not nonnegative), and daleStep models that run as the
invalid-value error. -/
theorem dale_nonneg_and_mask_count (p : RNNParams)
    (conn : Fin p.n_rec → Fin p.n_rec → Bool) (g ga : Fin p.n_rec → Fin p.n_rec → ℚ)
    (sq : ℚ → ℚ) (eigO : Mat p.n_rec → ℚ) (p1 : RNNParams) (w m : Mat p.n_rec)
    (hd : p.apply_dale = true)
    (hsq : ∀ x, 0 ≤ sq x) (hei : ∀ M : Mat p.n_rec, 0 ≤ eigO M)
    (hsr : 0 ≤ p.spectr_rad) (hpi0 : 0 ≤ p.p_inh) (hpi1 : p.p_inh ≤ 1)
    (hn1 : 1 ≤ nInhZ p.n_rec p.p_inh)
    (hok : initialize_w_rec p conn g ga sq eigO = .ok (p1, w, m)) :
    (∀ i j, 0 ≤ w i j) ∧
    (Finset.univ.filter fun i : Fin p.n_rec => m i i = -1).card
      = (nInhZ p.n_rec p.p_inh).toNat ∧
    (∀ i : Fin p.n_rec, m i i = -1 ∨ m i i = 1) := by
  obtain ⟨w1, w2, hs, hdl, hsp⟩ := initialize_w_rec_ok hok
  obtain ⟨hn, hpr, hpi, hap, hbal, hrbal, hsrad⟩ := sampleStep_ok_fields hs
  rw [hpr, hpi, hap, hbal, hrbal, hd] at hdl
  have hw2 : ∀ i j, 0 ≤ w2 i j := daleStep_ok_nonneg hpi0 hpi1 hsq hdl
  have hwpos : ∀ i j, 0 ≤ w i j :=
    spectrStep_ok_nonneg (by rw [hsrad]; exact hsr) hei hw2 hsp
  have hm : m = daleMask p.n_rec p.p_inh := daleStep_ok_mask hdl
  subst hm
  refine ⟨hwpos, daleMask_count hn1 (nInh_le hpi0 hpi1), fun i => ?_⟩
  simp only [daleMask, Matrix.of_apply, eq_self_iff_true, if_true]
  split_ifs
  · exact Or.inl rfl
  · exact Or.inr rfl

/-- The configuration of the C1 counterexample: n_rec * p_inh = 2.9, which
int() truncates to 2 while round() gives 3. -/
def cfgRound : RNNParams :=
  { n_rec := 10, p_rec := 1, w_rec_dist := "gauss", w_dist := none,
    spectr_rad := 1, spectr_norm := false, apply_dale := true, p_inh := 29 / 100,
    balance_dale := false, row_balance_dale := false }

lemma nInhZ_eq {n k : ℕ} {pi : ℚ} (h0 : 0 ≤ (n : ℚ) * pi)
    (h1 : (k : ℚ) ≤ (n : ℚ) * pi) (h2 : (n : ℚ) * pi < k + 1) :
    nInhZ n pi = (k : ℤ) := by
  unfold nInhZ
  rw [pyInt_floor h0, (Nat.floor_eq_iff h0).mpr ⟨h1, h2⟩]

lemma nInhZ_cfgRound : nInhZ 10 (29 / 100) = 2 :=
  nInhZ_eq (by norm_num) (by norm_num) (by norm_num)

/-- C1 counterexample: with n_rec = 10 and p_inh = 0.29 the returned mask
has exactly 2 diagonal entries equal to -1, while the claim predicts
round(10 * 0.29) = 3 of them. -/
theorem mask_count_not_round :
    initialize_w_rec cfgRound (fun _ _ => false) (fun _ _ => 0) (fun _ _ => 0)
        (fun _ => 1) (fun _ => 1)
      = .ok (cfgRound,
          absW 10 (gaussW 10 1 1 (fun _ _ => false) (fun _ _ => 0) (fun _ => 1)),
          daleMask 10 (29 / 100)) ∧
    (Finset.univ.filter fun i : Fin 10 => daleMask 10 (29 / 100) i i = -1).card = 2 ∧
    round ((10 : ℚ) * (29 / 100)) = 3 := by
  refine ⟨initialize_w_rec_build (sampleStep_gauss rfl) daleStep_abs spectrStep_off,
    ?_, ?_⟩
  · rw [@daleMask_count 10 (29 / 100) (by rw [nInhZ_cfgRound]; norm_num)
      (by rw [nInhZ_cfgRound]; norm_num), nInhZ_cfgRound]
    rfl
  · rw [round_eq, show (10 : ℚ) * (29 / 100) + 1 / 2 = 17 / 5 by norm_num]
    have h3 : ⌊(17 : ℚ) / 5⌋ = 3 := by
      rw [Int.floor_eq_iff]
      norm_num
    rw [h3]

/-- The configuration of the C1 witness: n_rec = 2, p_inh = 1/2, so one
mask row is flipped. -/
def cfgHalf : RNNParams :=
  { n_rec := 2, p_rec := 1, w_rec_dist := "gauss", w_dist := none,
    spectr_rad := 1, spectr_norm := false, apply_dale := true, p_inh := 1 / 2,
    balance_dale := false, row_balance_dale := false }

lemma nInhZ_cfgHalf : nInhZ 2 (1 / 2) = 1 :=
  nInhZ_eq (by norm_num) (by norm_num) (by norm_num)

/-- Witness for C1 (amended): the concrete configuration cfgHalf returns a
mask with exactly int(2 * 0.5) = 1 diagonal entry equal to -1. -/
theorem dale_nonneg_and_mask_count_witness :
    (Finset.univ.filter fun i : Fin 2 => daleMask 2 (1 / 2) i i = -1).card
      = (nInhZ 2 (1 / 2)).toNat :=
  (dale_nonneg_and_mask_count cfgHalf (fun _ _ => false) (fun _ _ => 0)
    (fun _ _ => 0) (fun _ => 1) (fun _ => 1) cfgHalf
    (absW 2 (gaussW 2 1 1 (fun _ _ => false) (fun _ _ => 0) (fun _ => 1)))
    (daleMask 2 (1 / 2)) rfl (fun _ => zero_le_one) (fun _ => zero_le_one)
    (by norm_num [cfgHalf]) (by norm_num [cfgHalf]) (by norm_num [cfgHalf])
    (by show (1 : ℤ) ≤ nInhZ 2 (1 / 2); rw [nInhZ_cfgHalf])
    (initialize_w_rec_build (sampleStep_gauss rfl) daleStep_abs spectrStep_off)).2.1

section RowBalance

lemma mem_exCols {n : ℕ} {pi : ℚ} {j : Fin n} :
    j ∈ exCols n pi ↔ (j : ℕ) < inhStart n pi := by
  simp [exCols]

lemma mem_inhCols {n : ℕ} {pi : ℚ} {j : Fin n} :
    j ∈ inhCols n pi ↔ inhStart n pi ≤ (j : ℕ) := by
  simp [inhCols]

lemma sumEx_scale {n : ℕ} {pi b : ℚ} {w : Mat n} {i : Fin n} :
    sumEx n pi (scaleW n b w) i = sumEx n pi w i * b := by
  simp only [sumEx, scaleW, Matrix.of_apply]
  rw [Finset.sum_mul]

lemma sumIn_scale {n : ℕ} {pi b : ℚ} {w : Mat n} {i : Fin n} :
    sumIn n pi (scaleW n b w) i = sumIn n pi w i * b := by
  simp only [sumIn, scaleW, Matrix.of_apply]
  rw [Finset.sum_mul]

lemma sumIn_rowBal {n : ℕ} {pi : ℚ} {w : Mat n} {i : Fin n} :
    sumIn n pi (rowBalW n pi w) i = sumIn n pi w i := by
  simp only [sumIn, rowBalW, Matrix.of_apply]
  refine Finset.sum_congr rfl fun j hj => ?_
  rw [if_neg (not_lt.mpr (mem_inhCols.mp hj))]

lemma sumEx_rowBal {n : ℕ} {pi : ℚ} {w : Mat n} {i : Fin n}
    (hex : sumEx n pi w i ≠ 0) :
    sumEx n pi (rowBalW n pi w) i = sumIn n pi w i := by
  have hcongr : ∀ j ∈ exCols n pi,
      rowBalW n pi w i j = w i j / (sumEx n pi w i / sumIn n pi w i) := by
    intro j hj
    simp only [rowBalW, Matrix.of_apply]
    rw [if_pos (mem_exCols.mp hj)]
  unfold sumEx
  rw [Finset.sum_congr rfl hcongr, ← Finset.sum_div]
  rw [show ∑ j ∈ exCols n pi, w i j = sumEx n pi w i from rfl]
  rw [div_div_eq_mul_div, mul_comm, mul_div_assoc, div_self hex, mul_one]

/-- C8: with apply_dale, balance_dale and row_balance_dale all requested and
every row having nonzero excitatory and inhibitory column sums, each row of
the matrix produced by the row-balancing step has equal sums over the
excitatory and the inhibitory columns, and this per-row equality is
preserved by the subsequent global multiplication with the correction
factor b (as performed by the Dale step of initialize_w_rec, whose balanced
path returns exactly scaleW of bFactor applied to rowBalW). -/
theorem row_balance_sums (n : ℕ) (p_rec p_inh : ℚ) (sq : ℚ → ℚ) (w3 : Mat n)
    (hex : ∀ i, sumEx n p_inh w3 i ≠ 0) (_hin : ∀ i, sumIn n p_inh w3 i ≠ 0)
    (i : Fin n) :
    sumEx n p_inh (rowBalW n p_inh w3) i = sumIn n p_inh (rowBalW n p_inh w3) i ∧
    sumEx n p_inh (scaleW n (bFactor p_rec p_inh sq) (rowBalW n p_inh w3)) i
      = sumIn n p_inh (scaleW n (bFactor p_rec p_inh sq) (rowBalW n p_inh w3)) i := by
  have hmain : sumEx n p_inh (rowBalW n p_inh w3) i
      = sumIn n p_inh (rowBalW n p_inh w3) i := by
    rw [sumEx_rowBal (hex i), sumIn_rowBal]
  exact ⟨hmain, by rw [sumEx_scale, sumIn_scale, hmain]⟩

/-- The concrete matrix of the C8 witness. -/
def balMat : Mat 2 := !![1, 2; 3, 4]

lemma inhStart_two_half : inhStart 2 (1 / 2) = 1 := by
  unfold inhStart negSliceIdx
  rw [nInhZ_cfgHalf]
  rfl

lemma exCols_two_half : exCols 2 (1 / 2) = {0} := by
  unfold exCols
  rw [inhStart_two_half]
  decide

lemma inhCols_two_half : inhCols 2 (1 / 2) = {1} := by
  unfold inhCols
  rw [inhStart_two_half]
  decide

lemma balMat_sumEx : ∀ i, sumEx 2 (1 / 2) balMat i ≠ 0 := by
  intro i
  unfold sumEx
  rw [exCols_two_half, Finset.sum_singleton]
  fin_cases i <;> norm_num [balMat]

lemma balMat_sumIn : ∀ i, sumIn 2 (1 / 2) balMat i ≠ 0 := by
  intro i
  unfold sumIn
  rw [inhCols_two_half, Finset.sum_singleton]
  fin_cases i <;> norm_num [balMat]

/-- Witness for C8: the row-balanced version of a concrete 2 x 2 matrix has
equal excitatory and inhibitory row sums, before and after the global b
scaling. -/
theorem row_balance_sums_witness :
    sumEx 2 (1 / 2) (rowBalW 2 (1 / 2) balMat) 0
      = sumIn 2 (1 / 2) (rowBalW 2 (1 / 2) balMat) 0 ∧
    sumEx 2 (1 / 2) (scaleW 2 (bFactor 1 (1 / 2) ratSqrt) (rowBalW 2 (1 / 2) balMat)) 0
      = sumIn 2 (1 / 2) (scaleW 2 (bFactor 1 (1 / 2) ratSqrt) (rowBalW 2 (1 / 2) balMat)) 0 :=
  row_balance_sums 2 1 (1 / 2) ratSqrt balMat balMat_sumEx balMat_sumIn 0

end RowBalance

section RowBalanceGuard

/-- C10: the row-balancing ratio of line 68 divides by the inhibitory row
sums in_u, a division only well defined when every in_u is nonzero. Under
the precondition that every row has a nonzero entry in some inhibitory
column, each in_u is strictly positive (the entries have passed through
np.abs and the positive EIratio scaling), so the error branch guarding that
division is never taken: the call never produces the divide-by-zero error,
and whenever the second division site of line 69 is also well defined
(every excitatory row sum nonzero) the whole call returns. -/
theorem row_balance_guard (p : RNNParams)
    (conn : Fin p.n_rec → Fin p.n_rec → Bool) (g ga : Fin p.n_rec → Fin p.n_rec → ℚ)
    (sq : ℚ → ℚ) (eigO : Mat p.n_rec → ℚ)
    (hd : p.apply_dale = true) (hb : p.balance_dale = true)
    (hrb : p.row_balance_dale = true)
    (hgau : p.w_rec_dist = "gauss") (hsn : p.spectr_norm = false)
    (hpi0 : 0 < p.p_inh) (hpi1 : p.p_inh < 1)
    (hpre : ∀ i, ∃ j : Fin p.n_rec, inhStart p.n_rec p.p_inh ≤ (j : ℕ) ∧
        gaussW p.n_rec p.p_rec p.spectr_rad conn g sq i j ≠ 0) :
    (∀ i, 0 < sumIn p.n_rec p.p_inh
        (eiW p.n_rec p.p_inh
          (absW p.n_rec (gaussW p.n_rec p.p_rec p.spectr_rad conn g sq))) i) ∧
    initialize_w_rec p conn g ga sq eigO
      ≠ .error "divide by zero encountered in divide" ∧
    ((∀ i, sumEx p.n_rec p.p_inh
        (eiW p.n_rec p.p_inh
          (absW p.n_rec (gaussW p.n_rec p.p_rec p.spectr_rad conn g sq))) i ≠ 0) →
      ∃ w m, initialize_w_rec p conn g ga sq eigO = .ok (p, w, m)) := by
  have hEIpos : 0 < (1 - p.p_inh) / p.p_inh := div_pos (by linarith) hpi0
  have hin : ∀ i, 0 < sumIn p.n_rec p.p_inh
      (eiW p.n_rec p.p_inh
        (absW p.n_rec (gaussW p.n_rec p.p_rec p.spectr_rad conn g sq))) i := by
    intro i
    obtain ⟨j, hj, hnz⟩ := hpre i
    unfold sumIn
    apply Finset.sum_pos'
    · intro k _
      exact eiW_nonneg (le_of_lt hEIpos)
        (absW_nonneg p.n_rec (gaussW p.n_rec p.p_rec p.spectr_rad conn g sq)) i k
    · refine ⟨j, mem_inhCols.mpr hj, ?_⟩
      simp only [eiW, absW, Matrix.of_apply]
      rw [if_pos hj]
      exact mul_pos (abs_pos.mpr hnz) hEIpos
  by_cases hex : ∀ i, sumEx p.n_rec p.p_inh
      (eiW p.n_rec p.p_inh
        (absW p.n_rec (gaussW p.n_rec p.p_rec p.spectr_rad conn g sq))) i ≠ 0
  · have hds : daleStep p.n_rec p.p_rec p.p_inh p.apply_dale p.balance_dale
        p.row_balance_dale sq (gaussW p.n_rec p.p_rec p.spectr_rad conn g sq)
        = .ok (scaleW p.n_rec (bFactor p.p_rec p.p_inh sq)
            (rowBalW p.n_rec p.p_inh (eiW p.n_rec p.p_inh
              (absW p.n_rec (gaussW p.n_rec p.p_rec p.spectr_rad conn g sq)))),
            daleMask p.n_rec p.p_inh) := by
      rw [hd, hb, hrb]
      exact daleStep_rowbal (ne_of_gt hpi0) (fun i => ne_of_gt (hin i)) hex
    have hrun : initialize_w_rec p conn g ga sq eigO
        = .ok (p, scaleW p.n_rec (bFactor p.p_rec p.p_inh sq)
            (rowBalW p.n_rec p.p_inh (eiW p.n_rec p.p_inh
              (absW p.n_rec (gaussW p.n_rec p.p_rec p.spectr_rad conn g sq)))),
            daleMask p.n_rec p.p_inh) :=
      initialize_w_rec_build (sampleStep_gauss hgau) hds
        (by rw [hsn]; exact spectrStep_off)
    refine ⟨hin, ?_, fun _ => ⟨_, _, hrun⟩⟩
    rw [hrun]
    intro hcon
    exact Except.noConfusion hcon
  · have hds : daleStep p.n_rec p.p_rec p.p_inh p.apply_dale p.balance_dale
        p.row_balance_dale sq (gaussW p.n_rec p.p_rec p.spectr_rad conn g sq)
        = .error "invalid value encountered in divide" := by
      rw [hd, hb, hrb]
      exact daleStep_rowbal_nan (ne_of_gt hpi0) (fun i => ne_of_gt (hin i)) hex
    have hrun : initialize_w_rec p conn g ga sq eigO
        = .error "invalid value encountered in divide" :=
      initialize_w_rec_dale_error (sampleStep_gauss hgau) hds
    refine ⟨hin, ?_, fun hex2 => absurd hex2 hex⟩
    rw [hrun]
    intro hcon
    exact absurd (Except.error.inj hcon) (by decide)

/-- The configuration of the C10 witness. -/
def cfgGuard : RNNParams :=
  { n_rec := 2, p_rec := 1, w_rec_dist := "gauss", w_dist := none,
    spectr_rad := 1, spectr_norm := false, apply_dale := true, p_inh := 1 / 2,
    balance_dale := true, row_balance_dale := true }

lemma inhStart_one_half : inhStart 1 (1 / 2) = 0 := by
  unfold inhStart negSliceIdx
  rw [@nInhZ_eq 1 0 (1 / 2) (by norm_num) (by norm_num) (by norm_num)]
  rfl

lemma cfgGuard_pre : ∀ i : Fin cfgGuard.n_rec, ∃ j : Fin cfgGuard.n_rec,
    inhStart cfgGuard.n_rec cfgGuard.p_inh ≤ (j : ℕ) ∧
    gaussW cfgGuard.n_rec cfgGuard.p_rec cfgGuard.spectr_rad (fun _ _ => true)
      (fun _ _ => 1) (fun _ => 1) i j ≠ 0 := by
  intro i
  refine ⟨⟨1, by decide⟩, ?_, ?_⟩
  · rw [show inhStart cfgGuard.n_rec cfgGuard.p_inh = 1 from inhStart_two_half]
  · norm_num [gaussW, cfgGuard]

lemma cfgGuard_ex : ∀ i, sumEx 2 (1 / 2)
    (eiW 2 (1 / 2)
      (absW 2 (gaussW 2 1 1 (fun _ _ => true) (fun _ _ => 1) (fun _ => 1)))) i ≠ 0 := by
  intro i
  unfold sumEx
  rw [exCols_two_half, Finset.sum_singleton]
  norm_num [eiW, absW, gaussW, inhStart_two_half]

/-- Witness for C10: the concrete configuration cfgGuard (all three flags
on, a fully connected two-neuron network) has strictly positive inhibitory
row sums, the call does not produce the divide-by-zero error, and since its
excitatory row sums are also nonzero the call returns. -/
theorem row_balance_guard_witness :
    0 < sumIn 2 (1 / 2)
      (eiW 2 (1 / 2)
        (absW 2 (gaussW 2 1 1 (fun _ _ => true) (fun _ _ => 1) (fun _ => 1)))) 0 ∧
    ∃ w m, initialize_w_rec cfgGuard (fun _ _ => true) (fun _ _ => 1) (fun _ _ => 0)
        (fun _ => 1) (fun _ => 1) = .ok (cfgGuard, w, m) :=
  ⟨(row_balance_guard cfgGuard (fun _ _ => true) (fun _ _ => 1) (fun _ _ => 0)
      (fun _ => 1) (fun _ => 1) rfl rfl rfl rfl rfl (by norm_num [cfgGuard])
      (by norm_num [cfgGuard]) cfgGuard_pre).1 ⟨0, by decide⟩,
    (row_balance_guard cfgGuard (fun _ _ => true) (fun _ _ => 1) (fun _ _ => 0)
      (fun _ => 1) (fun _ => 1) rfl rfl rfl rfl rfl (by norm_num [cfgGuard])
      (by norm_num [cfgGuard]) cfgGuard_pre).2.2 cfgGuard_ex⟩

end RowBalanceGuard

section Loadings

/-- n_loading of line 116: rank * 2 + n_inp + n_out. -/
def nLoading (rank n_inp n_out : ℕ) : ℕ := rank * 2 + n_inp + n_out

/-- The covariance matrix built on lines 121-124 when the caller supplies
none: the identity, with symmetric 0.6 entries at the pairs
(n_inp + i, n_inp + rank + i) for every i < rank. -/
def buildCov (rank n_inp n_out : ℕ) : Mat (nLoading rank n_inp n_out) :=
  Matrix.of fun a b =>
    if a = b then 1
    else if (n_inp ≤ (a : ℕ) ∧ (a : ℕ) < n_inp + rank ∧ (b : ℕ) = (a : ℕ) + rank) ∨
        (n_inp ≤ (b : ℕ) ∧ (b : ℕ) < n_inp + rank ∧ (a : ℕ) = (b : ℕ) + rank) then
      3 / 5
    else 0

/-- Lines 118-127: use the caller's covariance when given, else build the
default one. -/
def assembleCov (rank n_inp n_out : ℕ)
    (cov : Option (Mat (nLoading rank n_inp n_out))) : Mat (nLoading rank n_inp n_out) :=
  cov.getD (buildCov rank n_inp n_out)

/-- The entries of a square matrix extended by zero outside its index
range, with natural number indices (used by the recursion below). -/
def matExt (n : ℕ) (A : Mat n) (i j : ℕ) : ℚ :=
  if h : i < n ∧ j < n then A ⟨i, h.1⟩ ⟨j, h.2⟩ else 0

/-- The exact-arithmetic elimination underlying the Cholesky factorization
(the computation LAPACK performs, with the square roots deferred):
schurC A i j equals L i j * d j where A = L diag(d) Lt is the LDLT
factorization of A, and schurC A j j is the j-th pivot d j. -/
def schurC (n : ℕ) (A : Mat n) (i j : ℕ) : ℚ :=
  matExt n A i j -
    ∑ m ∈ (Finset.range j).attach,
      schurC n A i m.1 * schurC n A j m.1 / schurC n A m.1 m.1
termination_by j
decreasing_by all_goals exact Finset.mem_range.mp m.2

lemma schurC_eq (n : ℕ) (A : Mat n) (i j : ℕ) :
    schurC n A i j = matExt n A i j -
      ∑ m ∈ Finset.range j, schurC n A i m * schurC n A j m / schurC n A m m := by
  rw [schurC]
  congr 1
  exact Finset.sum_attach (Finset.range j)
    fun m => schurC n A i m * schurC n A j m / schurC n A m m

/-- Positive definiteness of a rational matrix, by the standard quadratic
form characterization for symmetric matrices. -/
def PosDefQ (n : ℕ) (A : Mat n) : Prop :=
  A.IsSymm ∧ ∀ x : Fin n → ℚ, x ≠ 0 → 0 < Matrix.dotProduct x (A.mulVec x)

/-- The success condition of the factorization: every pivot positive. For
a symmetric matrix this holds exactly when the matrix is positive definite;
LAPACK potrf fails exactly when it meets a nonpositive pivot. -/
def cholPivotsPos (n : ℕ) (A : Mat n) : Prop := ∀ j, j < n → 0 < schurC n A j j

instance cholPivotsPosDec (n : ℕ) (A : Mat n) : Decidable (cholPivotsPos n A) := by
  unfold cholPivotsPos
  exact Nat.decidableBallLT n _

/-- The lower-triangular factor produced on success: L i j * sqrt(d j),
with the unit factor L and the pivots d read off schurC. -/
def cholFactor (n : ℕ) (A : Mat n) : Mat n :=
  Matrix.of fun i j =>
    schurC n A (i : ℕ) (j : ℕ) / schurC n A (j : ℕ) (j : ℕ)
      * ratSqrt (schurC n A (j : ℕ) (j : ℕ))

/-- np.linalg.cholesky as called on line 130. Modelled from the documented
behavior of the numpy routine (an external library, not code of this
repository): it returns the lower-triangular Cholesky factor of a positive
definite matrix and raises LinAlgError otherwise. -/
def npCholesky (n : ℕ) (A : Mat n) : Except String (Mat n) :=
  if cholPivotsPos n A then .ok (cholFactor n A)
  else .error "Matrix is not positive definite"

/-- initialize_loadings (lines 104-136): assemble the covariance, take its
Cholesky factor; with return_loadings = true return the factor times the
standard normal draw G (left summand), else return the factor itself
(right summand). An uncaught LinAlgError propagates. -/
def initialize_loadings (rank n_inp n_out n_rec : ℕ)
    (cov : Option (Mat (nLoading rank n_inp n_out)))
    (G : Matrix (Fin (nLoading rank n_inp n_out)) (Fin n_rec) ℚ)
    (return_loadings : Bool) :
    Except String
      (Matrix (Fin (nLoading rank n_inp n_out)) (Fin n_rec) ℚ ⊕
        Mat (nLoading rank n_inp n_out)) :=
  ebind (npCholesky (nLoading rank n_inp n_out) (assembleCov rank n_inp n_out cov))
    fun L => if return_loadings then .ok (.inl (L * G)) else .ok (.inr L)

lemma matExt_in {n : ℕ} (A : Mat n) {i j : ℕ} (hi : i < n) (hj : j < n) :
    matExt n A i j = A ⟨i, hi⟩ ⟨j, hj⟩ := by
  unfold matExt
  rw [dif_pos ⟨hi, hj⟩]

lemma matExt_symm {n : ℕ} {A : Mat n} (hA : A.IsSymm) (i j : ℕ) :
    matExt n A i j = matExt n A j i := by
  unfold matExt
  by_cases h : i < n ∧ j < n
  · rw [dif_pos h, dif_pos ⟨h.2, h.1⟩]
    exact (Matrix.IsSymm.apply hA _ _).symm
  · rw [dif_neg h, dif_neg fun hc => h ⟨hc.2, hc.1⟩]

section CholUnique

variable {n : ℕ} {E : Mat n}

lemma mulT_ext {i j : ℕ} (hi : i < n) (hj : j < n) :
    matExt n (E * Eᵀ) i j
      = ∑ m ∈ Finset.range n, matExt n E i m * matExt n E j m := by
  rw [matExt_in _ hi hj, Matrix.mul_apply,
    ← Fin.sum_univ_eq_sum_range (fun m => matExt n E i m * matExt n E j m) n]
  apply Finset.sum_congr rfl
  intro m _
  rw [Matrix.transpose_apply, matExt_in E hi m.isLt, matExt_in E hj m.isLt]

lemma schurC_factor (hlow : ∀ i j : Fin n, (i : ℕ) < (j : ℕ) → E i j = 0)
    (hdiag : ∀ j : Fin n, 0 < E j j) :
    ∀ j, j < n → ∀ i, i < n →
      schurC n (E * Eᵀ) i j = matExt n E i j * matExt n E j j := by
  intro j
  induction j using Nat.strong_induction_on with
  | _ j IH =>
    intro hj i hi
    rw [schurC_eq, mulT_ext hi hj]
    have hsub : ∀ m ∈ Finset.range j,
        schurC n (E * Eᵀ) i m * schurC n (E * Eᵀ) j m / schurC n (E * Eᵀ) m m
          = matExt n E i m * matExt n E j m := by
      intro m hm
      have hmj : m < j := Finset.mem_range.mp hm
      have hmn : m < n := lt_trans hmj hj
      have hdm : matExt n E m m ≠ 0 := by
        rw [matExt_in E hmn hmn]
        exact ne_of_gt (hdiag _)
      rw [IH m hmj hmn i hi, IH m hmj hmn j hj, IH m hmj hmn m hmn]
      field_simp
      ring
    rw [Finset.sum_congr rfl hsub]
    simp only [Finset.range_eq_Ico]
    rw [← Finset.sum_Ico_consecutive (fun m => matExt n E i m * matExt n E j m)
      (Nat.zero_le j) (le_of_lt hj), add_sub_cancel_left]
    rw [Finset.sum_eq_single_of_mem j (Finset.mem_Ico.mpr ⟨le_refl j, hj⟩)]
    intro m hm hne
    have hjm : j < m := lt_of_le_of_ne (Finset.mem_Ico.mp hm).1 (Ne.symm hne)
    have hz : matExt n E j m = 0 := by
      rw [matExt_in E hj (Finset.mem_Ico.mp hm).2]
      exact hlow _ _ hjm
    rw [hz, mul_zero]

lemma schurC_pivots (hlow : ∀ i j : Fin n, (i : ℕ) < (j : ℕ) → E i j = 0)
    (hdiag : ∀ j : Fin n, 0 < E j j) :
    cholPivotsPos n (E * Eᵀ) := by
  intro j hj
  rw [schurC_factor hlow hdiag j hj j hj, matExt_in E hj hj]
  exact mul_pos (hdiag _) (hdiag _)

lemma cholFactor_eq (hlow : ∀ i j : Fin n, (i : ℕ) < (j : ℕ) → E i j = 0)
    (hdiag : ∀ j : Fin n, 0 < E j j) :
    cholFactor n (E * Eᵀ) = E := by
  ext a b
  have ha := schurC_factor hlow hdiag b b.isLt a a.isLt
  have hbb := schurC_factor hlow hdiag b b.isLt b b.isLt
  simp only [cholFactor, Matrix.of_apply]
  rw [ha, hbb, matExt_in E a.isLt b.isLt, matExt_in E b.isLt b.isLt]
  have hEb : 0 < E b b := hdiag b
  rw [ratSqrt_mul_self (le_of_lt hEb)]
  field_simp
  ring

lemma npCholesky_factor (hlow : ∀ i j : Fin n, (i : ℕ) < (j : ℕ) → E i j = 0)
    (hdiag : ∀ j : Fin n, 0 < E j j) :
    npCholesky n (E * Eᵀ) = .ok E := by
  unfold npCholesky
  rw [if_pos (schurC_pivots hlow hdiag), cholFactor_eq hlow hdiag]

end CholUnique

section CholPosDef

variable {n : ℕ} {A : Mat n}

lemma schurC_upper (hA : A.IsSymm) (hpiv : ∀ m, m < n → schurC n A m m ≠ 0) :
    ∀ j, j < n → ∀ i, i < j → schurC n A i j = 0 := by
  intro j
  induction j using Nat.strong_induction_on with
  | _ j IH =>
    intro hj i hij
    have hin : i < n := lt_trans hij hj
    rw [schurC_eq]
    have hsplit : ∑ m ∈ Finset.range j,
        schurC n A i m * schurC n A j m / schurC n A m m
        = (∑ m ∈ Finset.range i, schurC n A i m * schurC n A j m / schurC n A m m)
          + schurC n A j i := by
      simp only [Finset.range_eq_Ico]
      rw [← Finset.sum_Ico_consecutive
        (fun m => schurC n A i m * schurC n A j m / schurC n A m m)
        (Nat.zero_le (i + 1)) (Nat.succ_le_of_lt hij)]
      have h2 : ∑ m ∈ Finset.Ico (i + 1) j,
          schurC n A i m * schurC n A j m / schurC n A m m = 0 := by
        apply Finset.sum_eq_zero
        intro m hm
        obtain ⟨him, hmj⟩ := Finset.mem_Ico.mp hm
        rw [IH m hmj (lt_trans hmj hj) i (Nat.lt_of_succ_le him)]
        simp
      rw [h2, add_zero, Finset.sum_Ico_succ_top (Nat.zero_le i)]
      have hii : schurC n A i i ≠ 0 := hpiv i hin
      congr 1
      rw [mul_comm, mul_div_assoc, div_self hii, mul_one]
    rw [hsplit, schurC_eq n A j i, matExt_symm hA i j]
    have hcomm : ∑ m ∈ Finset.range i,
        schurC n A j m * schurC n A i m / schurC n A m m
        = ∑ m ∈ Finset.range i, schurC n A i m * schurC n A j m / schurC n A m m := by
      apply Finset.sum_congr rfl
      intro m _
      ring
    rw [hcomm]
    ring

lemma matExt_decomp (hA : A.IsSymm) (hpiv : ∀ m, m < n → 0 < schurC n A m m) :
    ∀ i, i < n → ∀ j, j < n →
      matExt n A i j
        = ∑ m ∈ Finset.range n, schurC n A i m * schurC n A j m / schurC n A m m := by
  have hne : ∀ m, m < n → schurC n A m m ≠ 0 := fun m hm => ne_of_gt (hpiv m hm)
  have key : ∀ i, i < n → ∀ j, j < n → j ≤ i →
      matExt n A i j
        = ∑ m ∈ Finset.range n, schurC n A i m * schurC n A j m / schurC n A m m := by
    intro i hi j hj hji
    simp only [Finset.range_eq_Ico]
    rw [← Finset.sum_Ico_consecutive
      (fun m => schurC n A i m * schurC n A j m / schurC n A m m)
      (Nat.zero_le j) (le_of_lt hj)]
    have h2 : ∑ m ∈ Finset.Ico j n,
        schurC n A i m * schurC n A j m / schurC n A m m = schurC n A i j := by
      rw [Finset.sum_eq_single_of_mem j (Finset.mem_Ico.mpr ⟨le_refl j, hj⟩)]
      · exact mul_div_cancel_right₀ _ (hne j hj)
      · intro m hm hmne
        have hjm : j < m := lt_of_le_of_ne (Finset.mem_Ico.mp hm).1 (Ne.symm hmne)
        rw [schurC_upper hA hne m (Finset.mem_Ico.mp hm).2 j hjm]
        simp
    rw [h2]
    have h1 := schurC_eq n A i j
    simp only [Finset.range_eq_Ico] at h1
    linarith
  intro i hi j hj
  rcases le_or_lt j i with hji | hij
  · exact key i hi j hj hji
  · rw [matExt_symm hA, key j hj i hi (le_of_lt hij)]
    apply Finset.sum_congr rfl
    intro m _
    ring

lemma posDefQ_of_pivots (hA : A.IsSymm) (hpiv : ∀ m, m < n → 0 < schurC n A m m) :
    PosDefQ n A := by
  refine ⟨hA, fun x hx => ?_⟩
  classical
  have hne : ∀ m, m < n → schurC n A m m ≠ 0 := fun m hm => ne_of_gt (hpiv m hm)
  let xe : ℕ → ℚ := fun m => if h : m < n then x ⟨m, h⟩ else 0
  have hxev : ∀ i : Fin n, xe (i : ℕ) = x i := by
    intro i
    simp only [xe, dif_pos i.isLt]
  have h1 : Matrix.dotProduct x (A.mulVec x)
      = ∑ i ∈ Finset.range n, xe i *
          ∑ j ∈ Finset.range n, matExt n A i j * xe j := by
    rw [Matrix.dotProduct,
      ← Fin.sum_univ_eq_sum_range
        (fun i => xe i * ∑ j ∈ Finset.range n, matExt n A i j * xe j) n]
    apply Finset.sum_congr rfl
    intro i _
    rw [hxev i]
    congr 1
    rw [Matrix.mulVec, Matrix.dotProduct,
      ← Fin.sum_univ_eq_sum_range (fun j => matExt n A (i : ℕ) j * xe j) n]
    apply Finset.sum_congr rfl
    intro j _
    rw [matExt_in A i.isLt j.isLt, hxev j]
  have h2 : ∑ i ∈ Finset.range n, xe i * ∑ j ∈ Finset.range n, matExt n A i j * xe j
      = ∑ m ∈ Finset.range n,
          (∑ i ∈ Finset.range n, xe i * schurC n A i m)
            * (∑ j ∈ Finset.range n, xe j * schurC n A j m) / schurC n A m m := by
    have hrw : ∀ i ∈ Finset.range n, xe i * ∑ j ∈ Finset.range n, matExt n A i j * xe j
        = ∑ j ∈ Finset.range n, ∑ m ∈ Finset.range n,
            xe i * (schurC n A i m * schurC n A j m / schurC n A m m) * xe j := by
      intro i hi
      rw [Finset.mul_sum]
      apply Finset.sum_congr rfl
      intro j hj
      rw [matExt_decomp hA hpiv i (Finset.mem_range.mp hi) j (Finset.mem_range.mp hj),
        Finset.sum_mul, Finset.mul_sum]
      apply Finset.sum_congr rfl
      intro m _
      ring
    rw [Finset.sum_congr rfl hrw]
    have hswap : ∑ i ∈ Finset.range n, ∑ j ∈ Finset.range n, ∑ m ∈ Finset.range n,
        xe i * (schurC n A i m * schurC n A j m / schurC n A m m) * xe j
        = ∑ m ∈ Finset.range n, ∑ i ∈ Finset.range n, ∑ j ∈ Finset.range n,
            xe i * (schurC n A i m * schurC n A j m / schurC n A m m) * xe j := by
      rw [show (∑ i ∈ Finset.range n, ∑ j ∈ Finset.range n, ∑ m ∈ Finset.range n,
          xe i * (schurC n A i m * schurC n A j m / schurC n A m m) * xe j)
        = ∑ i ∈ Finset.range n, ∑ m ∈ Finset.range n, ∑ j ∈ Finset.range n,
          xe i * (schurC n A i m * schurC n A j m / schurC n A m m) * xe j
        from Finset.sum_congr rfl fun i _ => Finset.sum_comm]
      exact Finset.sum_comm
    rw [hswap]
    apply Finset.sum_congr rfl
    intro m _
    rw [Finset.sum_mul_sum, Finset.sum_div]
    apply Finset.sum_congr rfl
    intro i _
    rw [Finset.sum_div]
    apply Finset.sum_congr rfl
    intro j _
    ring
  rw [h1, h2]
  obtain ⟨a, ha⟩ := Function.ne_iff.mp hx
  have hSne : (Finset.univ.filter fun k : Fin n => x k ≠ 0).Nonempty :=
    ⟨a, Finset.mem_filter.mpr ⟨Finset.mem_univ a, ha⟩⟩
  set i₀ : Fin n := (Finset.univ.filter fun k : Fin n => x k ≠ 0).max' hSne with hi₀
  have hi₀mem : x i₀ ≠ 0 :=
    (Finset.mem_filter.mp
      ((Finset.univ.filter fun k : Fin n => x k ≠ 0).max'_mem hSne)).2
  have hi₀max : ∀ k : Fin n, x k ≠ 0 → k ≤ i₀ := fun k hk =>
    Finset.le_max' _ k (Finset.mem_filter.mpr ⟨Finset.mem_univ k, hk⟩)
  have hy : ∑ i ∈ Finset.range n, xe i * schurC n A i (i₀ : ℕ)
      = x i₀ * schurC n A (i₀ : ℕ) (i₀ : ℕ) := by
    rw [Finset.sum_eq_single_of_mem (i₀ : ℕ) (Finset.mem_range.mpr i₀.isLt)]
    · rw [hxev i₀]
    · intro m hm hmne
      rcases lt_or_gt_of_ne hmne with hlt | hgt
      · rw [schurC_upper hA hne (i₀ : ℕ) i₀.isLt m hlt, mul_zero]
      · have hmn : m < n := Finset.mem_range.mp hm
        have hxm : x ⟨m, hmn⟩ = 0 := by
          by_contra hc
          exact absurd (hi₀max ⟨m, hmn⟩ hc) (not_le.mpr (Fin.lt_def.mpr hgt))
        simp only [xe, dif_pos hmn, hxm, zero_mul]
  apply Finset.sum_pos'
  · intro m hm
    exact div_nonneg (mul_self_nonneg _)
      (le_of_lt (hpiv m (Finset.mem_range.mp hm)))
  · refine ⟨(i₀ : ℕ), Finset.mem_range.mpr i₀.isLt, ?_⟩
    rw [hy]
    exact div_pos
      (mul_self_pos.mpr (mul_ne_zero hi₀mem (hne _ i₀.isLt)))
      (hpiv _ i₀.isLt)

end CholPosDef

section BuildFactor

/-- The n-loading block of indices [n_inp + rank, n_inp + 2 rank): the rows
of the default covariance that carry the 0.6 correlation toward the
corresponding m-loading row rank places earlier. -/
abbrev nBlock (rank n_inp : ℕ) (a : ℕ) : Prop :=
  n_inp + rank ≤ a ∧ a < n_inp + rank + rank

/-- The index rank places before a (used for the correlated entry). -/
def prevIdx (rank n_inp n_out : ℕ) (a : Fin (nLoading rank n_inp n_out)) :
    Fin (nLoading rank n_inp n_out) :=
  ⟨(a : ℕ) - rank, lt_of_le_of_lt (Nat.sub_le _ _) a.isLt⟩

/-- The lower-triangular Cholesky factor of buildCov: 1 on the diagonal
except 4/5 at the n-loading indices, and 3/5 at each position
(n_inp + rank + i, n_inp + i). -/
def cholBuild (rank n_inp n_out : ℕ) : Mat (nLoading rank n_inp n_out) :=
  Matrix.of fun a b =>
    if a = b then (if nBlock rank n_inp (a : ℕ) then 4 / 5 else 1)
    else if nBlock rank n_inp (a : ℕ) ∧ (b : ℕ) + rank = (a : ℕ) then 3 / 5 else 0

lemma cholBuild_lower (rank n_inp n_out : ℕ) :
    ∀ a b : Fin (nLoading rank n_inp n_out), (a : ℕ) < (b : ℕ) →
      cholBuild rank n_inp n_out a b = 0 := by
  intro a b hab
  have h1 : ¬ a = b := fun h => absurd hab (h ▸ lt_irrefl _)
  have h2 : ¬ (nBlock rank n_inp (a : ℕ) ∧ (b : ℕ) + rank = (a : ℕ)) := by
    rintro ⟨_, he⟩
    omega
  simp only [cholBuild, Matrix.of_apply]
  rw [if_neg h1, if_neg h2]

lemma cholBuild_diag (rank n_inp n_out : ℕ) :
    ∀ a : Fin (nLoading rank n_inp n_out), 0 < cholBuild rank n_inp n_out a a := by
  intro a
  simp only [cholBuild, Matrix.of_apply]
  rw [if_true]
  split_ifs <;> norm_num

lemma cholBuild_row (rank n_inp n_out : ℕ) (a m : Fin (nLoading rank n_inp n_out)) :
    cholBuild rank n_inp n_out a m
      = (if m = a then (if nBlock rank n_inp (a : ℕ) then (4 : ℚ) / 5 else 1) else 0)
        + (if nBlock rank n_inp (a : ℕ) ∧ (m : ℕ) + rank = (a : ℕ)
            then (3 : ℚ) / 5 else 0) := by
  simp only [cholBuild, Matrix.of_apply]
  by_cases h1 : a = m
  · subst h1
    have hno : ¬ (nBlock rank n_inp (a : ℕ) ∧ (a : ℕ) + rank = (a : ℕ)) := by
      rintro ⟨⟨hb1, hb2⟩, he⟩
      omega
    rw [if_pos rfl, if_pos rfl, if_neg hno, add_zero]
  · rw [if_neg h1, if_neg (fun h : m = a => h1 h.symm), zero_add]

lemma cholBuild_mul_entry (rank n_inp n_out : ℕ)
    (a b : Fin (nLoading rank n_inp n_out)) :
    (cholBuild rank n_inp n_out * (cholBuild rank n_inp n_out)ᵀ) a b
      = (if nBlock rank n_inp (a : ℕ) then (4 : ℚ) / 5 else 1)
          * cholBuild rank n_inp n_out b a
        + (if nBlock rank n_inp (a : ℕ) then
            (3 : ℚ) / 5 * cholBuild rank n_inp n_out b (prevIdx rank n_inp n_out a)
          else 0) := by
  rw [Matrix.mul_apply]
  simp only [Matrix.transpose_apply]
  have hexp : ∀ m : Fin (nLoading rank n_inp n_out),
      cholBuild rank n_inp n_out a m * cholBuild rank n_inp n_out b m
        = (if m = a then (if nBlock rank n_inp (a : ℕ) then (4 : ℚ) / 5 else 1)
              * cholBuild rank n_inp n_out b m else 0)
          + (if nBlock rank n_inp (a : ℕ) ∧ (m : ℕ) + rank = (a : ℕ)
              then (3 : ℚ) / 5 * cholBuild rank n_inp n_out b m else 0) := by
    intro m
    rw [cholBuild_row rank n_inp n_out a m, add_mul]
    congr 1
    · split_ifs <;> simp
    · split_ifs <;> simp
  rw [Finset.sum_congr rfl fun m _ => hexp m, Finset.sum_add_distrib]
  congr 1
  · rw [Finset.sum_ite_eq' Finset.univ a
      fun m => (if nBlock rank n_inp (a : ℕ) then (4 : ℚ) / 5 else 1)
        * cholBuild rank n_inp n_out b m]
    simp
  · by_cases hNa : nBlock rank n_inp (a : ℕ)
    · rw [if_pos hNa]
      rw [Finset.sum_eq_single_of_mem (prevIdx rank n_inp n_out a)
        (Finset.mem_univ _)]
      · have hc : nBlock rank n_inp (a : ℕ) ∧
            ((prevIdx rank n_inp n_out a : Fin _) : ℕ) + rank = (a : ℕ) := by
          refine ⟨hNa, ?_⟩
          have h1 := hNa.1
          show (a : ℕ) - rank + rank = (a : ℕ)
          omega
        rw [if_pos hc]
      · intro m _ hmne
        have hno : ¬ (nBlock rank n_inp (a : ℕ) ∧ (m : ℕ) + rank = (a : ℕ)) := by
          rintro ⟨_, he⟩
          exact hmne (Fin.ext (show (m : ℕ) = (a : ℕ) - rank by omega))
        rw [if_neg hno]
    · rw [if_neg hNa]
      apply Finset.sum_eq_zero
      intro m _
      rw [if_neg fun h => hNa h.1]

lemma cholBuild_spec (rank n_inp n_out : ℕ) :
    cholBuild rank n_inp n_out * (cholBuild rank n_inp n_out)ᵀ
      = buildCov rank n_inp n_out := by
  ext a b
  rw [cholBuild_mul_entry]
  have hpv : ((prevIdx rank n_inp n_out a : Fin _) : ℕ) = (a : ℕ) - rank := rfl
  by_cases hab : a = b
  · subst hab
    by_cases hNa : nBlock rank n_inp (a : ℕ)
    · have hr1 : 1 ≤ rank := by
        obtain ⟨h1, h2⟩ := hNa
        omega
      have hane : ¬ a = prevIdx rank n_inp n_out a := by
        intro h
        have hv := congrArg Fin.val h
        rw [hpv] at hv
        obtain ⟨h1, h2⟩ := hNa
        omega
      have hLaa : cholBuild rank n_inp n_out a a = 4 / 5 := by
        simp only [cholBuild, Matrix.of_apply]
        rw [if_true, if_pos hNa]
      have hLap : cholBuild rank n_inp n_out a (prevIdx rank n_inp n_out a) = 3 / 5 := by
        simp only [cholBuild, Matrix.of_apply]
        have hc : nBlock rank n_inp (a : ℕ) ∧
            ((prevIdx rank n_inp n_out a : Fin _) : ℕ) + rank = (a : ℕ) := by
          refine ⟨hNa, ?_⟩
          rw [hpv]
          obtain ⟨h1, h2⟩ := hNa
          omega
        rw [if_neg hane, if_pos hc]
      have hcov : buildCov rank n_inp n_out a a = 1 := by
        simp only [buildCov, Matrix.of_apply]
        rw [if_true]
      rw [if_pos hNa, if_pos hNa, hLaa, hLap, hcov]
      norm_num
    · have hLaa : cholBuild rank n_inp n_out a a = 1 := by
        simp only [cholBuild, Matrix.of_apply]
        rw [if_true, if_neg hNa]
      have hcov : buildCov rank n_inp n_out a a = 1 := by
        simp only [buildCov, Matrix.of_apply]
        rw [if_true]
      rw [if_neg hNa, if_neg hNa, hLaa, hcov]
      norm_num
  · have hvne : (a : ℕ) ≠ (b : ℕ) := fun h => hab (Fin.ext h)
    by_cases h2a : nBlock rank n_inp (b : ℕ) ∧ (a : ℕ) + rank = (b : ℕ)
    · have hNa : ¬ nBlock rank n_inp (a : ℕ) := by
        obtain ⟨⟨hb1, hb2⟩, he⟩ := h2a
        rintro ⟨ha1, ha2⟩
        omega
      have hLba : cholBuild rank n_inp n_out b a = 3 / 5 := by
        simp only [cholBuild, Matrix.of_apply]
        rw [if_neg (fun h : b = a => hab h.symm), if_pos h2a]
      have hcov : buildCov rank n_inp n_out a b = 3 / 5 := by
        simp only [buildCov, Matrix.of_apply]
        obtain ⟨⟨hb1, hb2⟩, he⟩ := h2a
        rw [if_neg hab, if_pos (Or.inl ⟨by omega, by omega, he.symm⟩)]
      rw [if_neg hNa, if_neg hNa, hLba, hcov]
      norm_num
    · by_cases h2b : nBlock rank n_inp (a : ℕ) ∧ (b : ℕ) + rank = (a : ℕ)
      · obtain ⟨hNa, hba⟩ := h2b
        have hLba : cholBuild rank n_inp n_out b a = 0 := by
          simp only [cholBuild, Matrix.of_apply]
          have hno : ¬ (nBlock rank n_inp (b : ℕ) ∧ (a : ℕ) + rank = (b : ℕ)) := by
            rintro ⟨_, he⟩
            obtain ⟨h1, h2⟩ := hNa
            omega
          rw [if_neg (fun h : b = a => hab h.symm), if_neg hno]
        have hbeq : b = prevIdx rank n_inp n_out a :=
          Fin.ext (by rw [hpv]; omega)
        have hNb : ¬ nBlock rank n_inp (b : ℕ) := by
          obtain ⟨h1, h2⟩ := hNa
          rintro ⟨hc1, hc2⟩
          omega
        have hLbp : cholBuild rank n_inp n_out b (prevIdx rank n_inp n_out a) = 1 := by
          simp only [cholBuild, Matrix.of_apply]
          rw [if_pos hbeq, if_neg hNb]
        have hcov : buildCov rank n_inp n_out a b = 3 / 5 := by
          simp only [buildCov, Matrix.of_apply]
          obtain ⟨h1, h2⟩ := hNa
          rw [if_neg hab, if_pos (Or.inr ⟨by omega, by omega, by omega⟩)]
        rw [if_pos hNa, if_pos hNa, hLba, hLbp, hcov]
        norm_num
      · have hLba : cholBuild rank n_inp n_out b a = 0 := by
          simp only [cholBuild, Matrix.of_apply]
          rw [if_neg (fun h : b = a => hab h.symm), if_neg fun hc => h2a ⟨hc.1, hc.2⟩]
        have hsec : (if nBlock rank n_inp (a : ℕ) then
            (3 : ℚ) / 5 * cholBuild rank n_inp n_out b (prevIdx rank n_inp n_out a)
          else 0) = 0 := by
          by_cases hNa : nBlock rank n_inp (a : ℕ)
          · rw [if_pos hNa]
            have hbne : ¬ b = prevIdx rank n_inp n_out a := by
              intro h
              apply h2b
              refine ⟨hNa, ?_⟩
              have hv := congrArg Fin.val h
              rw [hpv] at hv
              obtain ⟨h1, h2⟩ := hNa
              omega
            have hno : ¬ (nBlock rank n_inp (b : ℕ) ∧
                ((prevIdx rank n_inp n_out a : Fin _) : ℕ) + rank = (b : ℕ)) := by
              rintro ⟨_, he⟩
              rw [hpv] at he
              obtain ⟨h1, h2⟩ := hNa
              omega
            have hL : cholBuild rank n_inp n_out b (prevIdx rank n_inp n_out a) = 0 := by
              simp only [cholBuild, Matrix.of_apply]
              rw [if_neg hbne, if_neg hno]
            rw [hL, mul_zero]
          · rw [if_neg hNa]
        have hcov : buildCov rank n_inp n_out a b = 0 := by
          simp only [buildCov, Matrix.of_apply]
          have hno : ¬ ((n_inp ≤ (a : ℕ) ∧ (a : ℕ) < n_inp + rank ∧
                (b : ℕ) = (a : ℕ) + rank) ∨
              (n_inp ≤ (b : ℕ) ∧ (b : ℕ) < n_inp + rank ∧
                (a : ℕ) = (b : ℕ) + rank)) := by
            rintro (⟨hx1, hx2, hx3⟩ | ⟨hx1, hx2, hx3⟩)
            · exact h2a ⟨⟨by omega, by omega⟩, hx3.symm⟩
            · exact h2b ⟨⟨by omega, by omega⟩, hx3.symm⟩
          rw [if_neg hab, if_neg hno]
        rw [hLba, mul_zero, hsec, add_zero, hcov]

end BuildFactor

/-- C2: whenever the assembled covariance matrix (caller-supplied or built
internally) is symmetric but not positive definite, initialize_loadings
fails by propagating the numerical error of the Cholesky decomposition
instead of returning a matrix; the error is not caught inside the routine
(the Cholesky error string is returned unchanged, for either value of
return_loadings). -/
theorem loadings_fail_not_posdef (rank n_inp n_out n_rec : ℕ)
    (cov : Option (Mat (nLoading rank n_inp n_out)))
    (G : Matrix (Fin (nLoading rank n_inp n_out)) (Fin n_rec) ℚ) (ret : Bool)
    (hsym : (assembleCov rank n_inp n_out cov).IsSymm)
    (hnpd : ¬ PosDefQ (nLoading rank n_inp n_out) (assembleCov rank n_inp n_out cov)) :
    initialize_loadings rank n_inp n_out n_rec cov G ret
      = .error "Matrix is not positive definite" := by
  have hfail : ¬ cholPivotsPos (nLoading rank n_inp n_out)
      (assembleCov rank n_inp n_out cov) :=
    fun hpiv => hnpd (posDefQ_of_pivots hsym hpiv)
  unfold initialize_loadings npCholesky
  rw [if_neg hfail]
  rfl

/-- The zero covariance matrix used by the C2 witness (symmetric, not
positive definite). -/
def covZero : Mat (nLoading 0 1 0) := Matrix.of fun _ _ => 0

/-- Witness for C2: passing the explicit non positive definite covariance
covZero makes the call fail with the Cholesky error. -/
theorem loadings_fail_not_posdef_witness :
    initialize_loadings 0 1 0 1 (some covZero) 0 true
      = .error "Matrix is not positive definite" :=
  loadings_fail_not_posdef 0 1 0 1 (some covZero) 0 true
    (by ext i j; rfl)
    (fun h => by
      have hq := h.2 (fun _ => 1) (fun hc => by
        have h0 := congrFun hc ⟨0, by decide⟩
        norm_num at h0)
      simp [covZero, assembleCov, Matrix.mulVec, Matrix.dotProduct] at hq)

/-- C7: with cov = None, initialize_loadings builds the covariance equal to
the identity except for the symmetric 0.6 entries at (n_inp + i,
n_inp + rank + i) for i < rank (the definition buildCov, which the routine
assembles); with return_loadings true it returns the lower-triangular
Cholesky factor of that matrix times the k x n_rec standard normal draw G,
and with return_loadings false the factor itself. The last three conjuncts
state that cholBuild is that Cholesky factor: lower triangular, positive
diagonal, and cholBuild * cholBuildᵀ = buildCov. -/
theorem loadings_default_cov (rank n_inp n_out n_rec : ℕ)
    (G : Matrix (Fin (nLoading rank n_inp n_out)) (Fin n_rec) ℚ) :
    assembleCov rank n_inp n_out none = buildCov rank n_inp n_out ∧
    initialize_loadings rank n_inp n_out n_rec none G true
      = .ok (.inl (cholBuild rank n_inp n_out * G)) ∧
    initialize_loadings rank n_inp n_out n_rec none G false
      = .ok (.inr (cholBuild rank n_inp n_out)) ∧
    (∀ a b : Fin (nLoading rank n_inp n_out), (a : ℕ) < (b : ℕ) →
      cholBuild rank n_inp n_out a b = 0) ∧
    (∀ a, 0 < cholBuild rank n_inp n_out a a) ∧
    cholBuild rank n_inp n_out * (cholBuild rank n_inp n_out)ᵀ
      = buildCov rank n_inp n_out := by
  have hchol : npCholesky (nLoading rank n_inp n_out) (buildCov rank n_inp n_out)
      = .ok (cholBuild rank n_inp n_out) := by
    rw [← cholBuild_spec rank n_inp n_out]
    exact npCholesky_factor (cholBuild_lower rank n_inp n_out)
      (cholBuild_diag rank n_inp n_out)
  refine ⟨rfl, ?_, ?_, cholBuild_lower rank n_inp n_out,
    cholBuild_diag rank n_inp n_out, cholBuild_spec rank n_inp n_out⟩
  · unfold initialize_loadings
    rw [show assembleCov rank n_inp n_out none = buildCov rank n_inp n_out from rfl,
      hchol]
    rfl
  · unfold initialize_loadings
    rw [show assembleCov rank n_inp n_out none = buildCov rank n_inp n_out from rfl,
      hchol]
    rfl

/-- Witness for C7: at rank 1, n_inp 1, n_out 0 the factor itself is
returned when return_loadings is false. -/
theorem loadings_default_cov_witness :
    initialize_loadings 1 1 0 1 none 0 false = .ok (.inr (cholBuild 1 1 0)) :=
  (loadings_default_cov 1 1 0 1 0).2.2.1

end Loadings

end RNN
